import Mathlib

set_option maxRecDepth 4000

/-!
Shallow embedding of the workflow-builder core (src/src/types.ts,
src/src/utils/workflow.ts, src/src/App.tsx).

A JavaScript `Record<string, WorkflowNode>` is embedded as an association
list with unique keys; `{...prev, [k]: v}` replaces the value in place when
the key is present (appending otherwise), and `delete obj[k]` removes the
entry.  JavaScript truthiness of an optional string (`edge.id`,
`branchLabel`) means: present and non-empty.
-/

inductive NodeType where
  | action
  | branch
  | end_
deriving DecidableEq

structure Edge where
  id : Option String := none
  label : String
deriving DecidableEq

structure WorkflowNode where
  id : String
  label : String
  type : NodeType
  children : List Edge
deriving DecidableEq

structure ParentMatch where
  parentId : String
  edgeIndex : Nat
deriving DecidableEq

abbrev Graph := List (String × WorkflowNode)

/-- Lookup of `map[k]` (first matching key; JS objects have unique keys). -/
def lookup : Graph → String → Option WorkflowNode
  | [], _ => none
  | (k', n) :: rest, k => if k' = k then some n else lookup rest k

/-- Embedding of `{...g, [k]: v}`: replace in place, else append. -/
def setEntry : Graph → String → WorkflowNode → Graph
  | [], k, v => [(k, v)]
  | (k', n) :: rest, k, v => if k' = k then (k, v) :: rest else (k', n) :: setEntry rest k v

/-- Embedding of `delete g[k]`. -/
def eraseKey (g : Graph) (k : String) : Graph :=
  g.filter (fun p => p.1 ≠ k)

/-- JS truthiness of an optional string: present and non-empty. -/
def truthy : Option String → Bool
  | none => false
  | some s => s ≠ ""

/-- workflow.ts `cloneNodes`: deep copy, re-keyed by each node's own `id`
(value-level: copying is the identity, only the re-keying is observable). -/
def cloneNodes (g : Graph) : Graph :=
  g.map (fun p => (p.2.id, p.2))

def BRANCH_BASE : List String := ["True", "False"]

/-- workflow.ts `ensureBranchEdges`: append an unconnected edge for each
canonical label ("True", "False") that is missing. -/
def ensureBranchEdges (children : List Edge) : List Edge :=
  BRANCH_BASE.foldl
    (fun edges label =>
      if edges.any (fun e => e.label = label) then edges
      else edges ++ [{ label := label }])
    children

/-- One step of the `ensureBranchEdges` fold. -/
def ensureStep (edges : List Edge) (label : String) : List Edge :=
  if edges.any (fun e => e.label = label) then edges
  else edges ++ [{ label := label }]

/-- workflow.ts `createNode`. -/
def createNode (id : String) (type : NodeType) : WorkflowNode :=
  match type with
  | .branch => { id := id, label := "Branch", type := type, children := ensureBranchEdges [] }
  | .end_ => { id := id, label := "End", type := type, children := [] }
  | .action => { id := id, label := "Action", type := type, children := [] }

/-- Result of the fuel-indexed parent search: `outOfFuel` marks a run that was
cut off by the fuel bound (the JS recursion would still be running there). -/
inductive FPResult where
  | found : ParentMatch → FPResult
  | notFound
  | outOfFuel
deriving DecidableEq

/-- The edge loop of workflow.ts `findParent`: edges are visited in stored
order; an edge whose `id` equals the target is returned first; recursion
(`recurse`) only happens into a truthy (connected, non-empty) id, and a
nested hit is returned immediately.  Fuel exhaustion in a nested call
aborts the whole search. -/
def fpGo (recurse : String → FPResult) (currentId targetId : String) :
    Nat → List Edge → FPResult
  | _, [] => .notFound
  | i, e :: rest =>
    if e.id = some targetId then .found ⟨currentId, i⟩
    else
      match e.id with
      | some cid =>
        if cid = "" then fpGo recurse currentId targetId (i + 1) rest
        else
          match recurse cid with
          | .found m => .found m
          | .outOfFuel => .outOfFuel
          | .notFound => fpGo recurse currentId targetId (i + 1) rest
      | none => fpGo recurse currentId targetId (i + 1) rest

/-- Fuel-indexed embedding of workflow.ts `findParent` (the JS function is
general recursion over the map; fuel makes it total). -/
def findParentF : Nat → String → String → Graph → FPResult
  | 0, _, _, _ => .outOfFuel
  | fuel + 1, currentId, targetId, g =>
    match lookup g currentId with
    | none => .notFound
    | some node => fpGo (fun cid => findParentF fuel cid targetId g) currentId targetId 0 node.children

/-- workflow.ts `findParent` with fuel sufficient for every acyclic map
(proved below); on such maps the result does not depend on the bound. -/
def findParent (rootId targetId : String) (g : Graph) : Option ParentMatch :=
  match findParentF (g.length + 2) rootId targetId g with
  | .found m => some m
  | _ => none

/-- App.tsx `attachExistingChild`.  There is no `end` case in the source:
an End node never receives the prior child.  The `[]` branch for a branch
node is unreachable (`ensureBranchEdges` output is never empty). -/
def attachExistingChild (node : WorkflowNode) (childId : Option String) : WorkflowNode :=
  if truthy childId = false then node
  else
    match node.type with
    | .branch =>
      match ensureBranchEdges node.children with
      | e :: rest => { node with children := { e with id := childId } :: rest }
      | [] => node
    | .action => { node with children := [{ id := childId, label := "Next" }] }
    | .end_ => node

/-- App.tsx `addNode` as a pure graph transform; `newId` stands for the
`nextId()` the component generates.  In the source the freshly inserted
object is mutated by `attachExistingChild` after being put in the map, so
the map holds the attached node. -/
def addNode (newId parentId : String) (branchLabel : Option String) (type : NodeType)
    (g : Graph) : Graph :=
  match lookup g parentId with
  | none => g
  | some parent =>
    if parent.type = .end_ then g
    else
      let newNode := createNode newId type
      match parent.type with
      | .action =>
        let existing := parent.children.head?.bind (fun e => e.id)
        let updated := setEntry g newId (attachExistingChild newNode existing)
        setEntry updated parentId
          { parent with children := [{ id := some newId, label := "Next" }] }
      | .branch =>
        let edges := ensureBranchEdges parent.children
        let targetIndex :=
          match branchLabel with
          | some bl => if bl = "" then 0 else (edges.findIdx? (fun e => e.label = bl)).getD 0
          | none => 0
        let slot := edges.getD targetIndex { label := "Next" }
        let updated := setEntry g newId (attachExistingChild newNode slot.id)
        setEntry updated parentId
          { parent with children := edges.set targetIndex { slot with id := some newId } }
      | .end_ => setEntry g newId newNode

/-- Index-aware list map, embedding JS `arr.map((x, idx) => ...)` starting
at index `start`. -/
def mapIdxFrom (f : Nat → Edge → Edge) : Nat → List Edge → List Edge
  | _, [] => []
  | i, e :: rest => f i e :: mapIdxFrom f (i + 1) rest

/-- The deleted node's "adopted" edges: `target.children.filter(e => e.id)`. -/
def adoptedOf (n : WorkflowNode) : List Edge :=
  n.children.filter (fun e => truthy e.id)

/-- App.tsx `deleteNode` as a pure graph transform (the root guard sits in
front of `applyChange` in the source; its net effect on the graph is the
same).  `edges.splice(edgeIndex, 1, ...reps)` is `take ++ reps ++ drop`. -/
def deleteNode (rootId targetId : String) (g : Graph) : Graph :=
  if targetId = rootId then g
  else
    match findParent rootId targetId g with
    | none => g
    | some relation =>
      match lookup g relation.parentId, lookup g targetId with
      | some parent, some target =>
        let updated := eraseKey g targetId
        let adopted := adoptedOf target
        match parent.type with
        | .action =>
          match adopted with
          | next :: _ =>
            setEntry updated relation.parentId
              { parent with children :=
                  [{ id := next.id,
                     label := ((parent.children[relation.edgeIndex]?).map Edge.label).getD "Next" }] }
          | [] => setEntry updated relation.parentId { parent with children := [] }
        | .branch =>
          let edges := ensureBranchEdges parent.children
          let base := (edges[relation.edgeIndex]?).getD { label := "Next" }
          let edges' :=
            match adopted with
            | [] => edges.set relation.edgeIndex { base with id := none }
            | [a] => edges.set relation.edgeIndex { base with id := a.id }
            | _ :: _ :: _ =>
              let replacements := mapIdxFrom
                (fun idx e =>
                  { label := if e.label ≠ "" then base.label ++ " + " ++ e.label
                             else base.label ++ " path " ++ Nat.repr (idx + 1),
                    id := e.id }) 0 adopted
              edges.take relation.edgeIndex ++ replacements ++ edges.drop (relation.edgeIndex + 1)
          setEntry updated relation.parentId
            { parent with children := ensureBranchEdges edges' }
        | .end_ => updated
      | _, _ => g

/-- App.tsx `updateLabel`.  When the id is unknown the source produces a
spread copy carrying `[id]: undefined`; at the value level of the node map
that is the unchanged map, which is how it is embedded here. -/
def updateLabel (id label : String) (g : Graph) : Graph :=
  match lookup g id with
  | some n => setEntry g id { n with label := label }
  | none => g

/-- App.tsx `addBranchPath`. -/
def addBranchPath (nodeId : String) (g : Graph) : Graph :=
  match lookup g nodeId with
  | some node =>
    if node.type = .branch then
      setEntry g nodeId
        { node with children :=
            node.children ++ [{ label := "Path " ++ Nat.repr (node.children.length + 1) }] }
    else g
  | none => g

/-! History manager (App.tsx component state `nodes`, `history`,
`historyIndex`; `applyChange`, `undo`, `redo`). -/

structure AppState where
  nodes : Graph
  history : List Graph
  historyIndex : Nat
deriving DecidableEq

/-- App.tsx `applyChange`: run the updater; if it returned the input
unchanged nothing happens; otherwise the new graph becomes current and,
when `trackHistory` is set, the redo tail is truncated, a cloned snapshot
is appended, and the cursor advances. -/
def applyChange (st : AppState) (updater : Graph → Graph) (trackHistory : Bool) : AppState :=
  let next := updater st.nodes
  if next = st.nodes then st
  else if trackHistory then
    { nodes := next,
      history := st.history.take (st.historyIndex + 1) ++ [cloneNodes next],
      historyIndex := st.historyIndex + 1 }
  else { st with nodes := next }

/-- App.tsx `undo` (the out-of-range list read is unreachable: the cursor
stays within the history). -/
def undo (st : AppState) : AppState :=
  if st.historyIndex = 0 then st
  else
    { nodes := cloneNodes ((st.history[st.historyIndex - 1]?).getD []),
      history := st.history,
      historyIndex := st.historyIndex - 1 }

/-- App.tsx `redo`.  In JS, `historyIndex >= history.length - 1` with an
empty history compares against `-1`; over `Nat` the guard `len - 1`
truncates to `0`, giving the same no-op behaviour. -/
def redo (st : AppState) : AppState :=
  if st.history.length - 1 ≤ st.historyIndex then st
  else
    { nodes := cloneNodes ((st.history[st.historyIndex + 1]?).getD []),
      history := st.history,
      historyIndex := st.historyIndex + 1 }

def rootId : String := "node-0"

/-- The single-node default graph (App.tsx `loadInitial` fallback). -/
def defaultGraph : Graph :=
  [(rootId, { id := rootId, label := "Start", type := .action, children := [] })]

/-- Initial component state. -/
def initialState : AppState :=
  { nodes := cloneNodes defaultGraph,
    history := [cloneNodes defaultGraph],
    historyIndex := 0 }

/-- The numeric-suffix scan of the id-counter effect:
`Number(key.replace('node-', ''))`, skipping keys that do not parse. -/
def maxSuffix (g : Graph) : Nat :=
  g.foldl
    (fun mx p =>
      match ((p.1.replace "node-" "").toNat?) with
      | some v => max mx v
      | none => mx)
    0

/-- `nextId()` as recomputed from the current graph by the id-counter
effect: the counter is the maximal numeric suffix plus one. -/
def nextIdOf (g : Graph) : String :=
  "node-" ++ Nat.repr (maxSuffix g + 1)

/-- The core operations the UI can invoke. -/
inductive Op where
  | insert (parentId : String) (branchLabel : Option String) (type : NodeType)
  | delete (targetId : String)
  | relabel (id label : String)
  | branchPath (nodeId : String)
  | undoOp
  | redoOp

/-- One UI-triggered step: mutations go through `applyChange` (trackable
except label edits, which write the nodes directly), undo/redo move the
cursor. -/
def stepApp (st : AppState) (op : Op) : AppState :=
  match op with
  | .insert parentId branchLabel type =>
    applyChange st (addNode (nextIdOf st.nodes) parentId branchLabel type) true
  | .delete targetId => applyChange st (deleteNode rootId targetId) true
  | .relabel id label => { st with nodes := updateLabel id label st.nodes }
  | .branchPath nodeId => applyChange st (addBranchPath nodeId) true
  | .undoOp => undo st
  | .redoOp => redo st

/-! Reachability through connected edges, the notion the traversal and the
rendering use: an edge is followed only when its `id` is truthy. -/

/-- One connected-edge step from `a` to `b`. -/
def EdgeStep (g : Graph) (a b : String) : Prop :=
  ∃ n, lookup g a = some n ∧ ∃ e ∈ n.children, e.id = some b ∧ b ≠ ""

/-- `b` is reachable from `a` following connected edges. -/
def Reaches (g : Graph) : String → String → Prop :=
  Relation.ReflTransGen (EdgeStep g)

/-- Acyclicity of the connected-edge relation, witnessed by a rank function
that strictly decreases along every connected edge out of a mapped node. -/
def AcyclicG (g : Graph) : Prop :=
  ∃ rank : String → Nat,
    ∀ k n, lookup g k = some n →
      ∀ e ∈ n.children, ∀ c, e.id = some c → c ≠ "" → rank c < rank k

/-- A connected-edge step that does not enter `t` (the shape of the steps
the parent search takes before locating `t`). -/
def StepAvoid (g : Graph) (t a b : String) : Prop :=
  EdgeStep g a b ∧ b ≠ t

/-- The connected targets of an edge list (used to state the
insert-then-delete round trip). -/
def connectedTargets (l : List Edge) : List String :=
  l.filterMap (fun e => match e.id with
    | some s => if s = "" then none else some s
    | none => none)

/-! Concrete graphs used by witnesses and counterexamples. -/

/-- A one-node graph whose only node is an End node. -/
def gEnd : Graph :=
  [("e1", { id := "e1", label := "End", type := .end_, children := [] })]

/-- A root Action node pointing at a Branch node with the two canonical
edges, the first connected to an End node. -/
def gBranch : Graph :=
  [("node-0", { id := "node-0", label := "Start", type := .action,
                children := [{ id := some "b1", label := "Next" }] }),
   ("b1", { id := "b1", label := "Branch", type := .branch,
            children := [{ id := some "x1", label := "True" },
                         { id := none, label := "False" }] }),
   ("x1", { id := "x1", label := "End", type := .end_, children := [] })]

/-- A Branch parent whose "True" path holds a Branch node with two
connected outgoing edges (the second with an empty label). -/
def gMulti : Graph :=
  [("node-0", { id := "node-0", label := "Start", type := .action,
                children := [{ id := some "b1", label := "Next" }] }),
   ("b1", { id := "b1", label := "Branch", type := .branch,
            children := [{ id := some "m1", label := "True" },
                         { id := none, label := "False" }] }),
   ("m1", { id := "m1", label := "Mid", type := .branch,
            children := [{ id := some "x2", label := "True" },
                         { id := some "x3", label := "" }] }),
   ("x2", { id := "x2", label := "End", type := .end_, children := [] }),
   ("x3", { id := "x3", label := "End", type := .end_, children := [] })]

/-- A root Action node whose single edge points at an End node (used to
exhibit the severed successor when an End node is inserted in front). -/
def gSever : Graph :=
  [("node-0", { id := "node-0", label := "Start", type := .action,
                children := [{ id := some "node-1", label := "Next" }] }),
   ("node-1", { id := "node-1", label := "E", type := .end_, children := [] })]

/-- An Action root whose only child is a Branch node with two connected
outgoing edges; deleting the branch orphans the second subtree. -/
def gOrphan : Graph :=
  [("node-0", { id := "node-0", label := "Start", type := .action,
                children := [{ id := some "node-1", label := "Next" }] }),
   ("node-1", { id := "node-1", label := "B", type := .branch,
                children := [{ id := some "node-2", label := "True" },
                             { id := some "node-3", label := "False" }] }),
   ("node-2", { id := "node-2", label := "X", type := .end_, children := [] }),
   ("node-3", { id := "node-3", label := "Y", type := .end_, children := [] })]

/-- A graph whose node "P" is not reachable from the root: inserting under
"P" succeeds but the follow-up delete cannot locate the new node. -/
def gUnreach : Graph :=
  [("node-0", { id := "node-0", label := "Start", type := .action, children := [] }),
   ("P", { id := "P", label := "Loose", type := .action,
           children := [{ id := some "Q", label := "Next" }] }),
   ("Q", { id := "Q", label := "End", type := .end_, children := [] })]

/-- Every entry's node carries its own key as `id` (true of every graph
the component ever builds; it makes `cloneNodes` the identity). -/
def KeyConsistent (g : Graph) : Prop :=
  ∀ q ∈ g, q.2.id = q.1

/-- The designated root is present and is an Action node. -/
def rootOK (g : Graph) : Prop :=
  ∃ n, lookup g rootId = some n ∧ n.type = .action

/-- Invariant of the component state: node map and every history snapshot
are key-consistent with a healthy root, and the cursor is in range. -/
def AppInv (st : AppState) : Prop :=
  KeyConsistent st.nodes ∧ rootOK st.nodes ∧
    (∀ h ∈ st.history, KeyConsistent h ∧ rootOK h) ∧
    st.historyIndex < st.history.length

/-! Association-list lemmas. -/

theorem lookup_setEntry_self (g : Graph) (k : String) (v : WorkflowNode) :
    lookup (setEntry g k v) k = some v := by
  induction g with
  | nil => simp [setEntry, lookup]
  | cons p rest ih =>
    obtain ⟨k', n⟩ := p
    by_cases h : k' = k
    · simp [setEntry, h, lookup]
    · simp [setEntry, h, lookup, ih]

theorem lookup_setEntry_ne (g : Graph) (k k' : String) (v : WorkflowNode) (h : k' ≠ k) :
    lookup (setEntry g k v) k' = lookup g k' := by
  induction g with
  | nil => simp [setEntry, lookup, Ne.symm h]
  | cons p rest ih =>
    obtain ⟨k₀, n⟩ := p
    by_cases hk : k₀ = k
    · subst hk
      simp [setEntry, lookup, Ne.symm h]
    · by_cases hk' : k₀ = k'
      · subst hk'
        simp [setEntry, hk, lookup]
      · simp [setEntry, hk, lookup, hk', ih]

theorem lookup_eraseKey_self (g : Graph) (k : String) :
    lookup (eraseKey g k) k = none := by
  induction g with
  | nil => simp [eraseKey, lookup]
  | cons p rest ih =>
    obtain ⟨k₀, n⟩ := p
    by_cases h : k₀ = k
    · simpa [eraseKey, h] using ih
    · simpa [eraseKey, List.filter_cons, h, lookup] using ih

theorem lookup_eraseKey_ne (g : Graph) (k k' : String) (h : k' ≠ k) :
    lookup (eraseKey g k) k' = lookup g k' := by
  induction g with
  | nil => simp [eraseKey, lookup]
  | cons p rest ih =>
    obtain ⟨k₀, n⟩ := p
    by_cases hk : k₀ = k
    · subst hk
      have h1 : eraseKey ((k₀, n) :: rest) k₀ = eraseKey rest k₀ := by
        simp [eraseKey, List.filter_cons]
      rw [h1, ih]
      simp [lookup, Ne.symm h]
    · have h1 : eraseKey ((k₀, n) :: rest) k = (k₀, n) :: eraseKey rest k := by
        simp [eraseKey, List.filter_cons, hk]
      rw [h1]
      by_cases hk' : k₀ = k'
      · subst hk'
        simp [lookup]
      · simp [lookup, hk', ih]

theorem lookup_mem {g : Graph} {k : String} {n : WorkflowNode}
    (h : lookup g k = some n) : (k, n) ∈ g := by
  induction g with
  | nil => simp [lookup] at h
  | cons p rest ih =>
    obtain ⟨k₀, n₀⟩ := p
    by_cases hk : k₀ = k
    · subst hk
      simp [lookup] at h
      simp [h]
    · simp [lookup, hk] at h
      exact List.mem_cons_of_mem _ (ih h)

/-! `ensureBranchEdges` lemmas, via the single fold step. -/

theorem ensureBranchEdges_eq_steps (l : List Edge) :
    ensureBranchEdges l = ensureStep (ensureStep l "True") "False" := rfl

theorem ensureStep_pos {l : List Edge} {s : String} (h : ∃ e ∈ l, e.label = s) :
    ensureStep l s = l := by
  unfold ensureStep
  rw [if_pos (by simpa using h)]

theorem ensureStep_neg {l : List Edge} {s : String} (h : ¬∃ e ∈ l, e.label = s) :
    ensureStep l s = l ++ [{ label := s }] := by
  unfold ensureStep
  rw [if_neg (by simpa using h)]

theorem ensureStep_any_self (l : List Edge) (s : String) :
    ∃ e ∈ ensureStep l s, e.label = s := by
  by_cases h : ∃ e ∈ l, e.label = s
  · rw [ensureStep_pos h]; exact h
  · rw [ensureStep_neg h]
    exact ⟨{ label := s }, by simp⟩

theorem ensureStep_mono {l : List Edge} {P : Edge → Prop} (s : String)
    (h : ∃ e ∈ l, P e) : ∃ e ∈ ensureStep l s, P e := by
  obtain ⟨e, he, hP⟩ := h
  by_cases hc : ∃ e ∈ l, e.label = s
  · rw [ensureStep_pos hc]; exact ⟨e, he, hP⟩
  · rw [ensureStep_neg hc]
    exact ⟨e, List.mem_append_left _ he, hP⟩

theorem ensureBranchEdges_eq_append (l : List Edge) :
    ∃ extra, ensureBranchEdges l = l ++ extra ∧
      ∀ e ∈ extra, e.id = none ∧ (e.label = "True" ∨ e.label = "False") := by
  rw [ensureBranchEdges_eq_steps]
  by_cases h1 : ∃ e ∈ l, e.label = "True"
  · rw [ensureStep_pos h1]
    by_cases h2 : ∃ e ∈ l, e.label = "False"
    · rw [ensureStep_pos h2]
      exact ⟨[], by simp⟩
    · rw [ensureStep_neg h2]
      exact ⟨[{ label := "False" }], by simp⟩
  · rw [ensureStep_neg h1]
    by_cases h2 : ∃ e ∈ l ++ [{ label := "True" }], e.label = "False"
    · rw [ensureStep_pos h2]
      exact ⟨[{ label := "True" }], by simp⟩
    · rw [ensureStep_neg h2]
      exact ⟨[{ label := "True" }, { label := "False" }], by simp⟩

theorem ensureBranchEdges_any_true (l : List Edge) :
    ∃ e ∈ ensureBranchEdges l, e.label = "True" := by
  rw [ensureBranchEdges_eq_steps]
  exact ensureStep_mono _ (ensureStep_any_self l "True")

theorem ensureBranchEdges_any_false (l : List Edge) :
    ∃ e ∈ ensureBranchEdges l, e.label = "False" :=
  ensureBranchEdges_eq_steps l ▸ ensureStep_any_self (ensureStep l "True") "False"

theorem ensureBranchEdges_of_both {l : List Edge}
    (h1 : ∃ e ∈ l, e.label = "True") (h2 : ∃ e ∈ l, e.label = "False") :
    ensureBranchEdges l = l := by
  rw [ensureBranchEdges_eq_steps, ensureStep_pos h1, ensureStep_pos h2]

/-- C7: branch-edge normalization is idempotent — `normalize(normalize(e))`
equals `normalize(e)` for every edge sequence `e` (workflow.ts
`ensureBranchEdges`). -/
theorem spec_C7 (e : List Edge) :
    ensureBranchEdges (ensureBranchEdges e) = ensureBranchEdges e :=
  ensureBranchEdges_of_both (ensureBranchEdges_any_true e) (ensureBranchEdges_any_false e)

/-- C3: every core operation that cannot apply — insert with an unknown
parent or an End parent, delete of the root or of a node the parent search
cannot locate, updateLabel with an unknown id, addBranchPath on an unknown
or non-Branch node — returns the input graph unchanged, as a value, with
no fault raised. -/
theorem spec_C3 :
    (∀ g newId parentId branchLabel type, lookup g parentId = none →
      addNode newId parentId branchLabel type g = g) ∧
    (∀ g newId parentId branchLabel type parent, lookup g parentId = some parent →
      parent.type = .end_ → addNode newId parentId branchLabel type g = g) ∧
    (∀ g rid, deleteNode rid rid g = g) ∧
    (∀ g rid targetId, findParent rid targetId g = none → deleteNode rid targetId g = g) ∧
    (∀ g id label, lookup g id = none → updateLabel id label g = g) ∧
    (∀ g nodeId, lookup g nodeId = none → addBranchPath nodeId g = g) ∧
    (∀ g nodeId node, lookup g nodeId = some node → node.type ≠ .branch →
      addBranchPath nodeId g = g) := by
  refine ⟨?_, ?_, ?_, ?_, ?_, ?_, ?_⟩
  · intro g newId parentId branchLabel type h
    simp [addNode, h]
  · intro g newId parentId branchLabel type parent h hend
    simp [addNode, h, hend]
  · intro g rid
    simp [deleteNode]
  · intro g rid targetId h
    by_cases hr : targetId = rid
    · simp [deleteNode, hr]
    · simp [deleteNode, hr, h]
  · intro g id label h
    simp [updateLabel, h]
  · intro g nodeId h
    simp [addBranchPath, h]
  · intro g nodeId node h hty
    simp [addBranchPath, h, hty]

theorem spec_C3_witness :
    addNode "node-9" "zz" none .action defaultGraph = defaultGraph ∧
    addNode "node-9" "e1" none .action gEnd = gEnd ∧
    deleteNode "node-0" "node-0" defaultGraph = defaultGraph ∧
    deleteNode "node-0" "ghost" defaultGraph = defaultGraph ∧
    updateLabel "zz" "L" defaultGraph = defaultGraph ∧
    addBranchPath "zz" defaultGraph = defaultGraph ∧
    addBranchPath "node-0" defaultGraph = defaultGraph :=
  ⟨spec_C3.1 _ _ _ _ _ (by decide),
   spec_C3.2.1 _ _ _ _ _ ⟨"e1", "End", .end_, []⟩ (by decide) (by decide),
   spec_C3.2.2.1 _ _,
   spec_C3.2.2.2.1 _ _ _ (by decide),
   spec_C3.2.2.2.2.1 _ _ _ (by decide),
   spec_C3.2.2.2.2.2.1 _ _ (by decide),
   spec_C3.2.2.2.2.2.2 _ _ ⟨"node-0", "Start", .action, []⟩ (by decide) (by decide)⟩

/-! Facts about decimal rendering (`Nat.repr`), needed because generated ids
and path labels embed numbers as strings. -/

theorem toDigitsCore_len_le (b : Nat) :
    ∀ (f n : Nat) (ds : List Char), ds.length ≤ (Nat.toDigitsCore b f n ds).length := by
  intro f
  induction f with
  | zero => intro n ds; simp [Nat.toDigitsCore]
  | succ f ih =>
    intro n ds
    rw [Nat.toDigitsCore]
    by_cases h : n / b = 0
    · simp [h]
    · simp only [h, if_false]
      have h2 := ih (n / b) (Nat.digitChar (n % b) :: ds)
      calc ds.length ≤ (Nat.digitChar (n % b) :: ds).length := by simp
        _ ≤ _ := h2

theorem toDigitsCore_len_succ (b f n : Nat) (ds : List Char) :
    ds.length + 1 ≤ (Nat.toDigitsCore b (f + 1) n ds).length := by
  rw [Nat.toDigitsCore]
  by_cases h : n / b = 0
  · simp [h]
  · simp only [h, if_false]
    have h2 := toDigitsCore_len_le b f (n / b) (Nat.digitChar (n % b) :: ds)
    simpa using h2

theorem repr_length_pos (n : Nat) : 1 ≤ (Nat.repr n).length := by
  show 1 ≤ ((Nat.toDigits 10 n).asString).length
  have h : ((Nat.toDigits 10 n).asString).length = (Nat.toDigits 10 n).length := rfl
  rw [h]
  unfold Nat.toDigits
  simpa using toDigitsCore_len_succ 10 n n []

theorem repr_ne_empty (n : Nat) : Nat.repr n ≠ "" := by
  intro h
  have := congrArg String.length h
  rw [show ("" : String).length = 0 from rfl] at this
  have h1 := repr_length_pos n
  omega

theorem repr_succ_ne_zero (n : Nat) : Nat.repr (n + 1) ≠ "0" := by
  show (Nat.toDigits 10 (n + 1)).asString ≠ "0"
  unfold Nat.toDigits
  rw [Nat.toDigitsCore]
  by_cases h : (n + 1) / 10 = 0
  · rw [if_pos h]
    have hlt : n + 1 < 10 := by
      by_contra h'
      push_neg at h'
      have h10 : 1 ≤ (n + 1) / 10 := (Nat.one_le_div_iff (by omega)).mpr h'
      omega
    rw [Nat.mod_eq_of_lt hlt]
    intro hs
    have hd : [Nat.digitChar (n + 1)] = ['0'] := congrArg String.data hs
    have hc : Nat.digitChar (n + 1) = '0' := by simpa using hd
    have hn : n ≤ 8 := by omega
    interval_cases n <;> simp [Nat.digitChar] at hc
  · rw [if_neg h]
    intro hs
    have hl := congrArg String.length hs
    have h2 : (2 : Nat) ≤
        (Nat.toDigitsCore 10 (n + 1) ((n + 1) / 10) [Nat.digitChar ((n + 1) % 10)]).length := by
      simpa using toDigitsCore_len_succ 10 n ((n + 1) / 10) [Nat.digitChar ((n + 1) % 10)]
    have hlen : ((Nat.toDigitsCore 10 (n + 1) ((n + 1) / 10)
        [Nat.digitChar ((n + 1) % 10)]).asString).length =
        (Nat.toDigitsCore 10 (n + 1) ((n + 1) / 10) [Nat.digitChar ((n + 1) % 10)]).length := rfl
    rw [hlen] at hl
    rw [show ("0" : String).length = 1 from rfl] at hl
    omega

/-! String-length facts for generated labels. -/

theorem pathLabel_ne_true (s : String) : "Path " ++ s ≠ "True" := by
  intro h
  have hl := congrArg String.length h
  rw [String.length_append] at hl
  rw [show ("Path " : String).length = 5 from rfl, show ("True" : String).length = 4 from rfl] at hl
  omega

theorem pathLabel_ne_false (s : String) (hs : s ≠ "") : "Path " ++ s ≠ "False" := by
  intro h
  have hl := congrArg String.length h
  rw [String.length_append] at hl
  rw [show ("Path " : String).length = 5 from rfl, show ("False" : String).length = 5 from rfl] at hl
  have h0 : s.length ≠ 0 := by
    intro hz
    apply hs
    apply String.ext
    have hd : s.data.length = 0 := hz
    simpa using List.length_eq_zero.mp hd
  omega

/-- Replacing the edge at `i` by a copy of itself with a different `id`
preserves which labels occur. -/
theorem exists_label_set_getD (l : List Edge) (i : Nat) (d : Edge) (idv : Option String)
    (s : String) (h : ∃ e ∈ l, e.label = s) :
    ∃ e ∈ l.set i { l.getD i d with id := idv }, e.label = s := by
  by_cases hi : i < l.length
  · obtain ⟨e, he, hl⟩ := h
    obtain ⟨j, hj, rfl⟩ := List.mem_iff_getElem.mp he
    by_cases hij : j = i
    · subst hij
      have hv : (l.set j { l.getD j d with id := idv })[j]? = some { l.getD j d with id := idv } :=
        List.getElem?_set_self (by simpa using hj)
      refine ⟨{ l.getD j d with id := idv }, List.getElem?_mem hv, ?_⟩
      have hgd : l.getD j d = l[j] := by
        simp [List.getD, List.getElem?_eq_getElem hj]
      rw [hgd]
      exact hl
    · have hv : (l.set i { l.getD i d with id := idv })[j]? = some l[j] := by
        rw [List.getElem?_set_ne (fun hh => hij hh.symm)]
        exact List.getElem?_eq_getElem hj
      exact ⟨l[j], List.getElem?_mem hv, hl⟩
  · rw [List.set_eq_of_length_le (by omega)]
    exact h

/-- C10: Insert and Delete persist the canonical-edge repair into the
stored children sequence of an affected Branch parent — after either write
the stored sequence contains edges labeled "True" and "False" — while
AddBranchPath only appends its "Path n" edge and performs no such repair
(a missing canonical label stays missing). -/
theorem spec_C10 :
    (∀ g newId parentId branchLabel type parent,
      lookup g parentId = some parent → parent.type = .branch →
      ∃ parent', lookup (addNode newId parentId branchLabel type g) parentId = some parent' ∧
        (∃ e ∈ parent'.children, e.label = "True") ∧
        (∃ e ∈ parent'.children, e.label = "False")) ∧
    (∀ g rid t r parent target,
      t ≠ rid → findParent rid t g = some r →
      lookup g r.parentId = some parent → parent.type = .branch →
      lookup g t = some target →
      ∃ parent', lookup (deleteNode rid t g) r.parentId = some parent' ∧
        (∃ e ∈ parent'.children, e.label = "True") ∧
        (∃ e ∈ parent'.children, e.label = "False")) ∧
    (∀ g nodeId node, lookup g nodeId = some node → node.type = .branch →
      ∃ node', lookup (addBranchPath nodeId g) nodeId = some node' ∧
        node'.children = node.children ++
          [{ id := none, label := "Path " ++ Nat.repr (node.children.length + 1) }] ∧
        ((∃ e ∈ node'.children, e.label = "True") ↔ (∃ e ∈ node.children, e.label = "True")) ∧
        ((∃ e ∈ node'.children, e.label = "False") ↔ (∃ e ∈ node.children, e.label = "False"))) := by
  refine ⟨?_, ?_, ?_⟩
  · intro g newId parentId branchLabel type parent h hty
    simp only [addNode, h, hty]
    refine ⟨_, by rw [if_neg (by simp)]; exact lookup_setEntry_self _ _ _, ?_, ?_⟩
    · exact exists_label_set_getD _ _ _ _ _ (ensureBranchEdges_any_true parent.children)
    · exact exists_label_set_getD _ _ _ _ _ (ensureBranchEdges_any_false parent.children)
  · intro g rid t r parent target hne hfp hp hty ht
    simp only [deleteNode, if_neg hne, hfp, hp, ht, hty]
    exact ⟨_, lookup_setEntry_self _ _ _, ensureBranchEdges_any_true _,
      ensureBranchEdges_any_false _⟩
  · intro g nodeId node h hty
    simp only [addBranchPath, h, hty, if_pos]
    refine ⟨_, lookup_setEntry_self _ _ _, rfl, ?_, ?_⟩
    · constructor
      · rintro ⟨e, he, hl⟩
        rcases List.mem_append.mp he with h1 | h2
        · exact ⟨e, h1, hl⟩
        · rw [List.mem_singleton] at h2
          subst h2
          exact absurd hl (pathLabel_ne_true _)
      · rintro ⟨e, he, hl⟩
        exact ⟨e, List.mem_append_left _ he, hl⟩
    · constructor
      · rintro ⟨e, he, hl⟩
        rcases List.mem_append.mp he with h1 | h2
        · exact ⟨e, h1, hl⟩
        · rw [List.mem_singleton] at h2
          subst h2
          exact absurd hl (pathLabel_ne_false _ (repr_ne_empty _))
      · rintro ⟨e, he, hl⟩
        exact ⟨e, List.mem_append_left _ he, hl⟩

theorem spec_C10_witness :
    (∃ parent', lookup (addNode "node-3" "b1" none .action gBranch) "b1" = some parent' ∧
      (∃ e ∈ parent'.children, e.label = "True") ∧
      (∃ e ∈ parent'.children, e.label = "False")) ∧
    (∃ parent', lookup (deleteNode "node-0" "x1" gBranch)
        (ParentMatch.mk "b1" 0).parentId = some parent' ∧
      (∃ e ∈ parent'.children, e.label = "True") ∧
      (∃ e ∈ parent'.children, e.label = "False")) ∧
    (∃ node', lookup (addBranchPath "b1" gBranch) "b1" = some node' ∧
      node'.children = [{ id := some "x1", label := "True" }, { id := none, label := "False" }] ++
        [{ id := none, label := "Path " ++ Nat.repr 3 }] ∧
      ((∃ e ∈ node'.children, e.label = "True") ↔
        (∃ e ∈ [Edge.mk (some "x1") "True", Edge.mk none "False"], e.label = "True")) ∧
      ((∃ e ∈ node'.children, e.label = "False") ↔
        (∃ e ∈ [Edge.mk (some "x1") "True", Edge.mk none "False"], e.label = "False"))) :=
  ⟨spec_C10.1 gBranch "node-3" "b1" none .action
      ⟨"b1", "Branch", .branch, [⟨some "x1", "True"⟩, ⟨none, "False"⟩]⟩ (by decide) rfl,
   spec_C10.2.1 gBranch "node-0" "x1" ⟨"b1", 0⟩
      ⟨"b1", "Branch", .branch, [⟨some "x1", "True"⟩, ⟨none, "False"⟩]⟩
      ⟨"x1", "End", .end_, []⟩ (by decide) (by decide) (by decide) rfl (by decide),
   spec_C10.2.2 gBranch "b1"
      ⟨"b1", "Branch", .branch, [⟨some "x1", "True"⟩, ⟨none, "False"⟩]⟩ (by decide) rfl⟩

/-! Soundness of the parent search: a `found` answer names a node reachable
from the start by steps avoiding the target, whose edge at the returned
index is connected to the target. -/

theorem fpGo_cons_found {recurse : String → FPResult} {c t : String} {i : Nat}
    {e : Edge} {rest : List Edge} (hid : e.id = some t) :
    fpGo recurse c t i (e :: rest) = .found ⟨c, i⟩ := by
  rw [fpGo, if_pos hid]

theorem fpGo_cons_none {recurse : String → FPResult} {c t : String} {i : Nat}
    {e : Edge} {rest : List Edge} (hid : e.id = none) :
    fpGo recurse c t i (e :: rest) = fpGo recurse c t (i + 1) rest := by
  rw [fpGo, hid, if_neg (by simp)]

theorem fpGo_cons_empty {recurse : String → FPResult} {c t : String} {i : Nat}
    {e : Edge} {rest : List Edge} (hid : e.id = some "") (hne : e.id ≠ some t) :
    fpGo recurse c t i (e :: rest) = fpGo recurse c t (i + 1) rest := by
  rw [fpGo, hid, if_neg (hid ▸ hne)]
  dsimp only
  rw [if_pos rfl]

theorem fpGo_cons_rec {recurse : String → FPResult} {c t : String} {i : Nat}
    {e : Edge} {rest : List Edge} {cid : String} (hid : e.id = some cid)
    (hne : e.id ≠ some t) (hc : cid ≠ "") :
    fpGo recurse c t i (e :: rest) =
      match recurse cid with
      | .found m => .found m
      | .outOfFuel => .outOfFuel
      | .notFound => fpGo recurse c t (i + 1) rest := by
  rw [fpGo, hid, if_neg (hid ▸ hne)]
  dsimp only
  rw [if_neg hc]

theorem fpGo_found {recurse : String → FPResult} {c t : String} {r : ParentMatch} :
    ∀ (es : List Edge) (i : Nat), fpGo recurse c t i es = .found r →
      (∃ j e, es[j]? = some e ∧ e.id = some t ∧ r = ⟨c, i + j⟩) ∨
      (∃ e ∈ es, ∃ cid, e.id = some cid ∧ cid ≠ "" ∧ cid ≠ t ∧ recurse cid = .found r) := by
  intro es
  induction es with
  | nil => intro i h; simp [fpGo] at h
  | cons e rest ih =>
    intro i h
    by_cases he : e.id = some t
    · rw [fpGo_cons_found he] at h
      cases h
      left
      exact ⟨0, e, by simp, he, by simp⟩
    · have lift : fpGo recurse c t (i + 1) rest = .found r →
          (∃ j e1, (e :: rest)[j]? = some e1 ∧ e1.id = some t ∧ r = ⟨c, i + j⟩) ∨
          (∃ e1 ∈ e :: rest, ∃ cid, e1.id = some cid ∧ cid ≠ "" ∧ cid ≠ t ∧
            recurse cid = .found r) := by
        intro h'
        rcases ih (i + 1) h' with ⟨j, e', hj, hid', hr⟩ | ⟨e', he', hcid⟩
        · left
          refine ⟨j + 1, e', by simpa using hj, hid', ?_⟩
          rw [hr]
          congr 1
          omega
        · right
          exact ⟨e', List.mem_cons_of_mem _ he', hcid⟩
      cases hid : e.id with
      | none =>
        rw [fpGo_cons_none hid] at h
        exact lift h
      | some cid =>
        by_cases hc : cid = ""
        · subst hc
          rw [fpGo_cons_empty hid he] at h
          exact lift h
        · rw [fpGo_cons_rec hid he hc] at h
          cases hrec : recurse cid with
          | found m =>
            rw [hrec] at h
            have hm : FPResult.found m = FPResult.found r := h
            cases hm
            right
            refine ⟨e, List.mem_cons_self _ _, cid, hid, hc, ?_, hrec⟩
            intro hct
            exact he (hct ▸ hid)
          | outOfFuel =>
            rw [hrec] at h
            exact absurd h (by simp)
          | notFound =>
            rw [hrec] at h
            exact lift h

theorem findParentF_found {t : String} {g : Graph} {r : ParentMatch} :
    ∀ (fuel : Nat) (c : String), findParentF fuel c t g = .found r →
      Relation.ReflTransGen (StepAvoid g t) c r.parentId ∧
      ∃ n e, lookup g r.parentId = some n ∧ n.children[r.edgeIndex]? = some e ∧
        e.id = some t := by
  intro fuel
  induction fuel with
  | zero => intro c h; simp [findParentF] at h
  | succ fuel ih =>
    intro c h
    rw [findParentF] at h
    cases hl : lookup g c with
    | none => rw [hl] at h; cases h
    | some node =>
      rw [hl] at h
      have h' : fpGo (fun cid => findParentF fuel cid t g) c t 0 node.children = .found r := h
      rcases fpGo_found node.children 0 h' with ⟨j, e, hj, hid, hr⟩ | ⟨e, he, cid, hid, hcne, hct, hrec⟩
      · subst hr
        exact ⟨Relation.ReflTransGen.refl, node, e, hl, by simpa using hj, hid⟩
      · obtain ⟨hchain, hslot⟩ := ih cid hrec
        exact ⟨Relation.ReflTransGen.head ⟨⟨node, hl, e, he, hid, hcne⟩, hct⟩ hchain, hslot⟩

theorem findParent_some {rid t : String} {g : Graph} {r : ParentMatch}
    (h : findParent rid t g = some r) :
    Relation.ReflTransGen (StepAvoid g t) rid r.parentId ∧
    ∃ n e, lookup g r.parentId = some n ∧ n.children[r.edgeIndex]? = some e ∧
      e.id = some t := by
  unfold findParent at h
  cases hf : findParentF (g.length + 2) rid t g with
  | found m =>
    rw [hf] at h
    have hm : m = r := by simpa using h
    subst hm
    exact findParentF_found _ _ hf
  | notFound => rw [hf] at h; cases h
  | outOfFuel => rw [hf] at h; cases h

theorem stepAvoid_chain_ne {g : Graph} {t rid x : String}
    (h : Relation.ReflTransGen (StepAvoid g t) rid x) (h0 : rid ≠ t) : x ≠ t := by
  induction h with
  | refl => exact h0
  | tail _ hstep _ => exact hstep.2

theorem ensureBranchEdges_getElem_lt (l : List Edge) (i : Nat) (hi : i < l.length) :
    (ensureBranchEdges l)[i]? = l[i]? := by
  obtain ⟨extra, he, _⟩ := ensureBranchEdges_eq_append l
  rw [he, List.getElem?_append_left hi]

theorem getElem_lt_of_some {l : List Edge} {i : Nat} {x : Edge} (h : l[i]? = some x) :
    i < l.length := by
  by_contra hc
  rw [List.getElem?_eq_none (by omega)] at h
  cases h

/-- C4: deleting a node with k ≥ 2 adopted edges under a Branch parent
replaces the single slot that pointed at it by one edge per adopted edge,
inserted in place (take before, replacements, then the remaining slots in
order); the idx-th new edge carries the idx-th adopted edge's target and
the label combining the slot's label with the adopted edge's label (slot
label " + " adopted label when the latter is non-empty, slot label
" path " idx+1 otherwise), and after re-normalization the stored edges
still contain labels "True" and "False". -/
theorem spec_C4 (g : Graph) (rid t : String) (r : ParentMatch)
    (parent target : WorkflowNode) (a b : Edge) (rest : List Edge)
    (hne : t ≠ rid)
    (hfp : findParent rid t g = some r)
    (hp : lookup g r.parentId = some parent)
    (hty : parent.type = .branch)
    (ht : lookup g t = some target)
    (had : adoptedOf target = a :: b :: rest) :
    ∃ parent' slot,
      lookup (deleteNode rid t g) r.parentId = some parent' ∧
      parent.children[r.edgeIndex]? = some slot ∧ slot.id = some t ∧
      parent'.children =
        ensureBranchEdges
          ((ensureBranchEdges parent.children).take r.edgeIndex ++
            mapIdxFrom
              (fun idx e =>
                { label := if e.label ≠ "" then slot.label ++ " + " ++ e.label
                           else slot.label ++ " path " ++ Nat.repr (idx + 1),
                  id := e.id }) 0 (a :: b :: rest) ++
            (ensureBranchEdges parent.children).drop (r.edgeIndex + 1)) ∧
      (∃ e ∈ parent'.children, e.label = "True") ∧
      (∃ e ∈ parent'.children, e.label = "False") := by
  obtain ⟨chain, n, slot, hn, hslot, hid⟩ := findParent_some hfp
  have hnp : n = parent := by
    rw [hn] at hp
    exact Option.some.inj hp
  subst hnp
  have hlen : r.edgeIndex < n.children.length := getElem_lt_of_some hslot
  have hbase : (ensureBranchEdges n.children)[r.edgeIndex]? = some slot := by
    rw [ensureBranchEdges_getElem_lt _ _ hlen]
    exact hslot
  have hdel : deleteNode rid t g =
      setEntry (eraseKey g t) r.parentId
        (WorkflowNode.mk n.id n.label n.type
          (ensureBranchEdges
            ((ensureBranchEdges n.children).take r.edgeIndex ++
              mapIdxFrom
                (fun idx e =>
                  { label := if e.label ≠ "" then slot.label ++ " + " ++ e.label
                             else slot.label ++ " path " ++ Nat.repr (idx + 1),
                    id := e.id }) 0 (a :: b :: rest) ++
              (ensureBranchEdges n.children).drop (r.edgeIndex + 1)))) := by
    simp only [deleteNode, if_neg hne, hfp, hp, ht, hty, had, hbase, Option.getD_some]
  refine ⟨_, slot, by rw [hdel]; exact lookup_setEntry_self _ _ _, hslot, hid, rfl,
    ensureBranchEdges_any_true _, ensureBranchEdges_any_false _⟩

theorem spec_C4_witness :
    ∃ parent' slot,
      lookup (deleteNode "node-0" "m1" gMulti) "b1" = some parent' ∧
      [Edge.mk (some "m1") "True", Edge.mk none "False"][(0 : Nat)]? = some slot ∧
      slot.id = some "m1" ∧
      parent'.children =
        ensureBranchEdges
          ((ensureBranchEdges [Edge.mk (some "m1") "True", Edge.mk none "False"]).take 0 ++
            mapIdxFrom
              (fun idx e =>
                { label := if e.label ≠ "" then slot.label ++ " + " ++ e.label
                           else slot.label ++ " path " ++ Nat.repr (idx + 1),
                  id := e.id }) 0 [Edge.mk (some "x2") "True", Edge.mk (some "x3") ""] ++
            (ensureBranchEdges [Edge.mk (some "m1") "True", Edge.mk none "False"]).drop (0 + 1)) ∧
      (∃ e ∈ parent'.children, e.label = "True") ∧
      (∃ e ∈ parent'.children, e.label = "False") :=
  spec_C4 gMulti "node-0" "m1" ⟨"b1", 0⟩
    ⟨"b1", "Branch", .branch, [⟨some "m1", "True"⟩, ⟨none, "False"⟩]⟩
    ⟨"m1", "Mid", .branch, [⟨some "x2", "True"⟩, ⟨some "x3", ""⟩]⟩
    ⟨some "x2", "True"⟩ ⟨some "x3", ""⟩ []
    (by decide) (by decide) (by decide) rfl (by decide) (by decide)

/-- C2 (amended): for an Action parent whose single edge points at a node
S, inserting a new node of kind action or branch rewires the parent's edge
to the new node under label "Next", and the new node inherits S as the
target of its first outgoing edge.  A new End node does not inherit S (see
the counterexample): the source's `attachExistingChild` has no `end`
case, so the claim's "every kind" fails for kind = end. -/
theorem spec_C2_amended (g : Graph) (newId p S : String) (parent : WorkflowNode) (e0 : Edge)
    (branchLabel : Option String) (type : NodeType)
    (hp : lookup g p = some parent) (hty : parent.type = .action)
    (h0 : parent.children.head? = some e0) (hS : e0.id = some S) (hSne : S ≠ "")
    (hfresh : lookup g newId = none)
    (htype : type = .action ∨ type = .branch) :
    ∃ parent' newNode,
      lookup (addNode newId p branchLabel type g) p = some parent' ∧
      parent'.children = [{ id := some newId, label := "Next" }] ∧
      lookup (addNode newId p branchLabel type g) newId = some newNode ∧
      ∃ e1, newNode.children.head? = some e1 ∧ e1.id = some S := by
  have hnep : newId ≠ p := by
    intro h
    rw [h, hp] at hfresh
    cases hfresh
  rcases htype with h | h <;> subst h
  · have hadd : addNode newId p branchLabel .action g =
        setEntry (setEntry g newId ⟨newId, "Action", .action, [⟨some S, "Next"⟩]⟩) p
          ⟨parent.id, parent.label, parent.type, [⟨some newId, "Next"⟩]⟩ := by
      simp [addNode, hp, hty, h0, hS, createNode, attachExistingChild, truthy, hSne]
    refine ⟨⟨parent.id, parent.label, parent.type, [⟨some newId, "Next"⟩]⟩,
      ⟨newId, "Action", .action, [⟨some S, "Next"⟩]⟩, ?_, rfl, ?_, ⟨some S, "Next"⟩, rfl, rfl⟩
    · rw [hadd]
      exact lookup_setEntry_self _ _ _
    · rw [hadd, lookup_setEntry_ne _ _ _ _ hnep]
      exact lookup_setEntry_self _ _ _
  · have hadd : addNode newId p branchLabel .branch g =
        setEntry (setEntry g newId
            ⟨newId, "Branch", .branch, [⟨some S, "True"⟩, ⟨none, "False"⟩]⟩) p
          ⟨parent.id, parent.label, parent.type, [⟨some newId, "Next"⟩]⟩ := by
      simp [addNode, hp, hty, h0, hS, createNode, attachExistingChild, truthy, hSne,
        ensureBranchEdges, BRANCH_BASE]
    refine ⟨⟨parent.id, parent.label, parent.type, [⟨some newId, "Next"⟩]⟩,
      ⟨newId, "Branch", .branch, [⟨some S, "True"⟩, ⟨none, "False"⟩]⟩, ?_, rfl, ?_,
      ⟨some S, "True"⟩, rfl, rfl⟩
    · rw [hadd]
      exact lookup_setEntry_self _ _ _
    · rw [hadd, lookup_setEntry_ne _ _ _ _ hnep]
      exact lookup_setEntry_self _ _ _

theorem spec_C2_amended_witness :
    ∃ parent' newNode,
      lookup (addNode "node-2" "node-0" none .action gSever) "node-0" = some parent' ∧
      parent'.children = [{ id := some "node-2", label := "Next" }] ∧
      lookup (addNode "node-2" "node-0" none .action gSever) "node-2" = some newNode ∧
      ∃ e1, newNode.children.head? = some e1 ∧ e1.id = some "node-1" :=
  spec_C2_amended gSever "node-2" "node-0" "node-1"
    ⟨"node-0", "Start", .action, [⟨some "node-1", "Next"⟩]⟩ ⟨some "node-1", "Next"⟩
    none .action (by decide) rfl (by decide) (by decide) (by decide) (by decide) (Or.inl rfl)

/-- C2 counterexample: inserting an End node in front of the successor
does not give the new node any outgoing edge, and the former successor
"node-1" is no longer reachable from the root — the downstream subtree IS
severed for kind = end, contradicting the claim's "every kind". -/
theorem spec_C2_counterexample :
    lookup (addNode "node-2" "node-0" none .end_ gSever) "node-2" =
      some ⟨"node-2", "End", .end_, []⟩ ∧
    Reaches gSever "node-0" "node-1" ∧
    ¬ Reaches (addNode "node-2" "node-0" none .end_ gSever) "node-0" "node-1" := by
  refine ⟨by decide, ?_, ?_⟩
  · exact Relation.ReflTransGen.single
      ⟨⟨"node-0", "Start", .action, [⟨some "node-1", "Next"⟩]⟩, rfl,
        ⟨some "node-1", "Next"⟩, by simp, rfl, by decide⟩
  · intro h
    have hsub : ∀ x, Reaches (addNode "node-2" "node-0" none .end_ gSever) "node-0" x →
        x = "node-0" ∨ x = "node-2" := by
      intro x hx
      induction hx with
      | refl => left; rfl
      | tail hprev hstep ih =>
        obtain ⟨n, hn, e, he, heid, hcne⟩ := hstep
        rcases ih with h1 | h1
        · subst h1
          have heval : lookup (addNode "node-2" "node-0" none .end_ gSever) "node-0" =
              some ⟨"node-0", "Start", .action, [⟨some "node-2", "Next"⟩]⟩ := by decide
          rw [heval] at hn
          have hn' := (Option.some.inj hn).symm
          subst hn'
          rw [List.mem_singleton] at he
          subst he
          right
          exact (Option.some.inj heid).symm
        · subst h1
          have heval : lookup (addNode "node-2" "node-0" none .end_ gSever) "node-2" =
              some ⟨"node-2", "End", .end_, []⟩ := by decide
          rw [heval] at hn
          have hn' := (Option.some.inj hn).symm
          subst hn'
          cases he
    rcases hsub "node-1" h with h1 | h1 <;> exact absurd h1 (by decide)

/-! Termination and determinism of the parent search on acyclic maps. -/

theorem filter_length_mono {α : Type} (l : List α) (P Q : α → Bool)
    (h : ∀ a, Q a → P a) : (l.filter Q).length ≤ (l.filter P).length := by
  induction l with
  | nil => simp
  | cons a l ih =>
    by_cases hq : Q a
    · rw [List.filter_cons_of_pos hq, List.filter_cons_of_pos (h a hq)]
      simpa using ih
    · rw [List.filter_cons_of_neg (by simpa using hq)]
      by_cases hp : P a
      · rw [List.filter_cons_of_pos hp]
        calc (l.filter Q).length ≤ (l.filter P).length := ih
          _ ≤ _ := by simp
      · rw [List.filter_cons_of_neg (by simpa using hp)]
        exact ih

theorem filter_length_strict {α : Type} (l : List α) (P Q : α → Bool)
    (h : ∀ a, Q a → P a) (x : α) (hx : x ∈ l) (hPx : P x) (hQx : ¬Q x) :
    (l.filter Q).length < (l.filter P).length := by
  induction l with
  | nil => cases hx
  | cons a l ih =>
    rcases List.mem_cons.mp hx with rfl | hx'
    · rw [List.filter_cons_of_pos hPx, List.filter_cons_of_neg (by simpa using hQx)]
      have := filter_length_mono l P Q h
      simpa using Nat.lt_succ_of_le this
    · by_cases hq : Q a
      · rw [List.filter_cons_of_pos hq, List.filter_cons_of_pos (h a hq)]
        simpa using ih hx'
      · rw [List.filter_cons_of_neg (by simpa using hq)]
        by_cases hp : P a
        · rw [List.filter_cons_of_pos hp]
          calc (l.filter Q).length < (l.filter P).length := ih hx'
            _ ≤ _ := by simp
        · rw [List.filter_cons_of_neg (by simpa using hp)]
          exact ih hx'

theorem fpGo_no_oof {recurse : String → FPResult} {c t : String} :
    ∀ (es : List Edge) (i : Nat),
      (∀ e ∈ es, ∀ cid, e.id = some cid → cid ≠ "" → recurse cid ≠ .outOfFuel) →
      fpGo recurse c t i es ≠ .outOfFuel := by
  intro es
  induction es with
  | nil => intro i _; simp [fpGo]
  | cons e rest ih =>
    intro i hrec
    by_cases he : e.id = some t
    · rw [fpGo_cons_found he]
      simp
    · have hrest : ∀ e1 ∈ rest, ∀ cid, e1.id = some cid → cid ≠ "" →
          recurse cid ≠ .outOfFuel :=
        fun e1 h1 => hrec e1 (List.mem_cons_of_mem _ h1)
      cases hid : e.id with
      | none =>
        rw [fpGo_cons_none hid]
        exact ih _ hrest
      | some cid =>
        by_cases hc : cid = ""
        · subst hc
          rw [fpGo_cons_empty hid he]
          exact ih _ hrest
        · rw [fpGo_cons_rec hid he hc]
          cases hr : recurse cid with
          | found m => simp
          | outOfFuel => exact absurd hr (hrec e (List.mem_cons_self _ _) cid hid hc)
          | notFound => exact ih _ hrest

theorem findParentF_no_oof (g : Graph) (t : String) (rank : String → Nat)
    (hrank : ∀ k n, lookup g k = some n →
      ∀ e ∈ n.children, ∀ c, e.id = some c → c ≠ "" → rank c < rank k) :
    ∀ (fuel : Nat) (c : String),
      (g.filter (fun p => rank p.1 < rank c)).length + 2 ≤ fuel →
      findParentF fuel c t g ≠ .outOfFuel := by
  intro fuel
  induction fuel with
  | zero => intro c h; omega
  | succ fuel ih =>
    intro c hM
    rw [findParentF]
    cases hl : lookup g c with
    | none => simp
    | some node =>
      apply fpGo_no_oof
      intro e he cid hid hcne
      have hlt : rank cid < rank c := hrank c node hl e he cid hid hcne
      cases hlc : lookup g cid with
      | none =>
        cases fuel with
        | zero => omega
        | succ f2 =>
          rw [findParentF, hlc]
          simp
      | some n2 =>
        apply ih
        have hmem : (cid, n2) ∈ g := lookup_mem hlc
        have hstrict : (g.filter (fun p => rank p.1 < rank cid)).length <
            (g.filter (fun p => rank p.1 < rank c)).length := by
          apply filter_length_strict g _ _ ?_ (cid, n2) hmem (by simpa using hlt) (by simp)
          intro a ha
          simp only [decide_eq_true_eq] at ha ⊢
          omega
        omega

theorem fpGo_congr {r1 r2 : String → FPResult} {c t : String} :
    ∀ (es : List Edge) (i : Nat), fpGo r1 c t i es ≠ .outOfFuel →
      (∀ cid, r1 cid ≠ .outOfFuel → r2 cid = r1 cid) →
      fpGo r2 c t i es = fpGo r1 c t i es := by
  intro es
  induction es with
  | nil => intro i _ _; rfl
  | cons e rest ih =>
    intro i hne hcongr
    by_cases he : e.id = some t
    · rw [fpGo_cons_found he, fpGo_cons_found he]
    · cases hid : e.id with
      | none =>
        rw [fpGo_cons_none hid] at hne ⊢
        rw [fpGo_cons_none hid]
        exact ih _ hne hcongr
      | some cid =>
        by_cases hc : cid = ""
        · subst hc
          rw [fpGo_cons_empty hid he] at hne ⊢
          rw [fpGo_cons_empty hid he]
          exact ih _ hne hcongr
        · rw [fpGo_cons_rec hid he hc] at hne ⊢
          rw [fpGo_cons_rec hid he hc]
          cases hr1 : r1 cid with
          | found m =>
            have h2 : r2 cid = r1 cid := hcongr cid (by rw [hr1]; simp)
            rw [h2, hr1]
          | outOfFuel => rw [hr1] at hne; exact absurd rfl hne
          | notFound =>
            have h2 : r2 cid = r1 cid := hcongr cid (by rw [hr1]; simp)
            rw [h2, hr1]
            rw [hr1] at hne
            exact ih _ hne hcongr

theorem findParentF_mono :
    ∀ (f1 f2 : Nat), f1 ≤ f2 → ∀ (c t : String) (g : Graph),
      findParentF f1 c t g ≠ .outOfFuel → findParentF f2 c t g = findParentF f1 c t g := by
  intro f1
  induction f1 with
  | zero => intro f2 _ c t g hne; exact absurd rfl hne
  | succ f1 ih =>
    intro f2 hle c t g hne
    cases f2 with
    | zero => omega
    | succ f2 =>
      rw [findParentF] at hne ⊢
      rw [findParentF]
      cases hl : lookup g c with
      | none => rfl
      | some node =>
        rw [hl] at hne
        exact fpGo_congr _ _ hne (fun cid h1 => ih f2 (by omega) cid t g h1)

/-! Completeness of the parent search: a `notFound` answer means no node
reachable from the start has an edge connected to the target. -/

theorem fpGo_notFound {recurse : String → FPResult} {c t : String} :
    ∀ (es : List Edge) (i : Nat), fpGo recurse c t i es = .notFound →
      ∀ e ∈ es, e.id ≠ some t ∧
        (∀ cid, e.id = some cid → cid ≠ "" → recurse cid = .notFound) := by
  intro es
  induction es with
  | nil => intro i _ e he; cases he
  | cons e rest ih =>
    intro i h
    by_cases he : e.id = some t
    · rw [fpGo_cons_found he] at h
      cases h
    · intro e1 he1
      rcases List.mem_cons.mp he1 with rfl | h1
      · refine ⟨he, ?_⟩
        intro cid hid hcne
        rw [fpGo_cons_rec hid he hcne] at h
        cases hr : recurse cid with
        | found m => rw [hr] at h; cases h
        | outOfFuel => rw [hr] at h; cases h
        | notFound => rfl
      · cases hid : e.id with
        | none =>
          rw [fpGo_cons_none hid] at h
          exact ih _ h e1 h1
        | some cid =>
          by_cases hc : cid = ""
          · subst hc
            rw [fpGo_cons_empty hid he] at h
            exact ih _ h e1 h1
          · rw [fpGo_cons_rec hid he hc] at h
            cases hr : recurse cid with
            | found m => rw [hr] at h; cases h
            | outOfFuel => rw [hr] at h; cases h
            | notFound =>
              rw [hr] at h
              exact ih _ h e1 h1

theorem findParentF_notFound_step {t : String} {g : Graph} {fuel : Nat} {c : String}
    (h : findParentF (fuel + 1) c t g = .notFound) :
    ∀ n, lookup g c = some n →
      ∀ e ∈ n.children, e.id ≠ some t ∧
        (∀ cid, e.id = some cid → cid ≠ "" → findParentF fuel cid t g = .notFound) := by
  intro n hn
  rw [findParentF, hn] at h
  exact fpGo_notFound n.children 0 h

theorem findParentF_notFound_reaches {t : String} {g : Graph} :
    ∀ (c x : String), Reaches g c x →
      ∀ fuel, findParentF fuel c t g = .notFound →
      ∀ n, lookup g x = some n → ∀ e ∈ n.children, e.id ≠ some t := by
  intro c x hr
  induction hr using Relation.ReflTransGen.head_induction_on with
  | refl =>
    intro fuel hf n hn e he
    cases fuel with
    | zero => rw [findParentF] at hf; cases hf
    | succ fuel => exact (findParentF_notFound_step hf n hn e he).1
  | head hstep hrest ih =>
    intro fuel hf n hn e he
    obtain ⟨na, hna, ea, hea, heid, hbne⟩ := hstep
    cases fuel with
    | zero => rw [findParentF] at hf; cases hf
    | succ fuel =>
      have hnext := (findParentF_notFound_step hf na hna ea hea).2 _ heid hbne
      exact ih fuel hnext n hn e he

/-- C9: on an acyclic node map the parent search terminates — the
fuel-indexed embedding never hits its bound at fuel `size + 2` and its
answer is the same at every larger bound (so the JS recursion's value is
well defined) — and its answer is the depth-first one: a found pair names
a node reachable from the root (by steps that avoid the target, in stored
edge order) whose edge at the returned index is connected to the target,
and a "not found" answer means no edge of any node reachable from the
root is connected to the target. -/
theorem spec_C9 (g : Graph) (rid tid : String) (hacyc : AcyclicG g) :
    (findParentF (g.length + 2) rid tid g ≠ .outOfFuel) ∧
    (∀ fuel, g.length + 2 ≤ fuel →
      findParentF fuel rid tid g = findParentF (g.length + 2) rid tid g) ∧
    (∀ r, findParent rid tid g = some r →
      Relation.ReflTransGen (StepAvoid g tid) rid r.parentId ∧
      ∃ n e, lookup g r.parentId = some n ∧ n.children[r.edgeIndex]? = some e ∧
        e.id = some tid) ∧
    (findParent rid tid g = none →
      ∀ x, Reaches g rid x → ∀ n, lookup g x = some n →
        ∀ e ∈ n.children, e.id ≠ some tid) := by
  obtain ⟨rank, hrank⟩ := hacyc
  have hno : findParentF (g.length + 2) rid tid g ≠ .outOfFuel := by
    apply findParentF_no_oof g tid rank hrank
    have h1 : (g.filter (fun p => rank p.1 < rank rid)).length ≤ g.length :=
      List.length_filter_le _ _
    omega
  refine ⟨hno, ?_, fun r h => findParent_some h, ?_⟩
  · intro fuel hf
    exact findParentF_mono _ _ hf _ _ _ hno
  · intro hnone x hx n hn e he
    have hnf : findParentF (g.length + 2) rid tid g = .notFound := by
      unfold findParent at hnone
      cases hf : findParentF (g.length + 2) rid tid g with
      | found m => rw [hf] at hnone; cases hnone
      | notFound => rfl
      | outOfFuel => exact absurd hf hno
    exact findParentF_notFound_reaches rid x hx _ hnf n hn e he

theorem spec_C9_witness :
    (findParentF (gSever.length + 2) "node-0" "node-1" gSever ≠ .outOfFuel) ∧
    (∀ fuel, gSever.length + 2 ≤ fuel →
      findParentF fuel "node-0" "node-1" gSever =
        findParentF (gSever.length + 2) "node-0" "node-1" gSever) ∧
    (∀ r, findParent "node-0" "node-1" gSever = some r →
      Relation.ReflTransGen (StepAvoid gSever "node-1") "node-0" r.parentId ∧
      ∃ n e, lookup gSever r.parentId = some n ∧ n.children[r.edgeIndex]? = some e ∧
        e.id = some "node-1") ∧
    (findParent "node-0" "node-1" gSever = none →
      ∀ x, Reaches gSever "node-0" x → ∀ n, lookup gSever x = some n →
        ∀ e ∈ n.children, e.id ≠ some "node-1") := by
  apply spec_C9
  refine ⟨fun k => if k = "node-0" then 1 else 0, ?_⟩
  intro k n hk e he c hc hcne
  simp only [gSever, lookup] at hk
  by_cases h0 : "node-0" = k
  · rw [if_pos h0] at hk
    have hn := (Option.some.inj hk).symm
    subst hn
    rw [List.mem_singleton] at he
    subst he
    have hc2 : c = "node-1" := (Option.some.inj hc).symm
    subst hc2
    rw [← h0]
    simp
  · rw [if_neg h0] at hk
    by_cases h1 : "node-1" = k
    · rw [if_pos h1] at hk
      have hn := (Option.some.inj hk).symm
      subst hn
      cases he
    · rw [if_neg h1] at hk
      cases hk

/-! Membership lemmas used by the deletion-preserves-reachability proof. -/

theorem mem_ensureBranchEdges {l : List Edge} {e : Edge} (h : e ∈ l) :
    e ∈ ensureBranchEdges l := by
  obtain ⟨extra, heq, _⟩ := ensureBranchEdges_eq_append l
  rw [heq]
  exact List.mem_append_left _ h

theorem mem_set_of_ne {E : List Edge} {i : Nat} {slot e : Edge}
    (hslot : E[i]? = some slot) (he : e ∈ E) (hne : e ≠ slot) (v : Edge) :
    e ∈ E.set i v := by
  obtain ⟨j, hj, rfl⟩ := List.mem_iff_getElem.mp he
  have hij : j ≠ i := by
    intro h
    subst h
    rw [List.getElem?_eq_getElem hj] at hslot
    exact hne (Option.some.inj hslot)
  have hv : (E.set i v)[j]? = some E[j] := by
    rw [List.getElem?_set_ne (fun hh => hij hh.symm)]
    exact List.getElem?_eq_getElem hj
  exact List.getElem?_mem hv

theorem mem_set_self {E : List Edge} {i : Nat} (hi : i < E.length) (v : Edge) :
    v ∈ E.set i v := by
  have hv : (E.set i v)[i]? = some v := List.getElem?_set_self hi
  exact List.getElem?_mem hv

theorem mem_splice_of_ne {E : List Edge} {i : Nat} {slot e : Edge} (X : List Edge)
    (hslot : E[i]? = some slot) (he : e ∈ E) (hne : e ≠ slot) :
    e ∈ E.take i ++ X ++ E.drop (i + 1) := by
  obtain ⟨j, hj, rfl⟩ := List.mem_iff_getElem.mp he
  have hij : j ≠ i := by
    intro h
    subst h
    rw [List.getElem?_eq_getElem hj] at hslot
    exact hne (Option.some.inj hslot)
  by_cases hji : j < i
  · apply List.mem_append_left
    apply List.mem_append_left
    have hv : (E.take i)[j]? = some E[j] := by
      rw [List.getElem?_take_of_lt hji]
      exact List.getElem?_eq_getElem hj
    exact List.getElem?_mem hv
  · apply List.mem_append_right
    have hv : (E.drop (i + 1))[j - (i + 1)]? = some E[j] := by
      rw [List.getElem?_drop]
      rw [show i + 1 + (j - (i + 1)) = j from by omega]
      exact List.getElem?_eq_getElem hj
    exact List.getElem?_mem hv

theorem mapIdxFrom_mem_id (f : Nat → Edge → Edge) (hf : ∀ i e, (f i e).id = e.id) :
    ∀ (k : Nat) (l : List Edge), ∀ e ∈ l, ∃ x ∈ mapIdxFrom f k l, x.id = e.id := by
  intro k l
  induction l generalizing k with
  | nil => intro e he; cases he
  | cons a rest ih =>
    intro e he
    rcases List.mem_cons.mp he with rfl | h1
    · exact ⟨f k e, List.mem_cons_self _ _, hf k e⟩
    · obtain ⟨x, hx, hid⟩ := ih (k + 1) e h1
      exact ⟨x, List.mem_cons_of_mem _ hx, hid⟩

/-- The common rewiring argument: if deletion produced the map with `t`
removed and the located parent's children replaced by `ch`, where `ch`
keeps every edge of the parent not pointing at `t` and contains an edge
for every adopted target of `t`, then exactly `t` leaves the map and every
other previously reachable node stays reachable. -/
theorem delete_reach_finish (g : Graph) (rid t p : String)
    (n target : WorkflowNode) (ch : List Edge)
    (hne : t ≠ rid) (hpt : p ≠ t)
    (hn : lookup g p = some n) (ht : lookup g t = some target)
    (chain : Relation.ReflTransGen (StepAvoid g t) rid p)
    (hdel : deleteNode rid t g = setEntry (eraseKey g t) p ⟨n.id, n.label, n.type, ch⟩)
    (hkeep : ∀ e ∈ n.children, e.id ≠ some t → e ∈ ch)
    (hadoptmem : ∀ e ∈ target.children, truthy e.id → ∃ e2 ∈ ch, e2.id = e.id) :
    lookup (deleteNode rid t g) t = none ∧
    (∀ k, k ≠ t → (lookup (deleteNode rid t g) k).isSome = (lookup g k).isSome) ∧
    (∀ x, x ≠ t → Reaches g rid x → Reaches (deleteNode rid t g) rid x) := by
  have hlookup_p : lookup (deleteNode rid t g) p = some ⟨n.id, n.label, n.type, ch⟩ := by
    rw [hdel]
    exact lookup_setEntry_self _ _ _
  have hpres : ∀ a b, a ≠ t → b ≠ t → EdgeStep g a b → EdgeStep (deleteNode rid t g) a b := by
    rintro a b ha hb ⟨na, hna, e, he, heid, hbne⟩
    by_cases hap : a = p
    · subst hap
      have hnan : na = n := by
        rw [hna] at hn
        exact Option.some.inj hn
      subst hnan
      refine ⟨⟨na.id, na.label, na.type, ch⟩, hlookup_p, e, ?_, heid, hbne⟩
      apply hkeep e he
      rw [heid]
      intro hh
      exact hb (Option.some.inj hh)
    · refine ⟨na, ?_, e, he, heid, hbne⟩
      rw [hdel, lookup_setEntry_ne _ _ _ _ hap, lookup_eraseKey_ne _ _ _ ha]
      exact hna
  have htransport : ∀ y, Relation.ReflTransGen (StepAvoid g t) rid y →
      y ≠ t ∧ Reaches (deleteNode rid t g) rid y := by
    intro y hy
    induction hy with
    | refl => exact ⟨Ne.symm hne, Relation.ReflTransGen.refl⟩
    | tail hprev hstep ih =>
      exact ⟨hstep.2, Relation.ReflTransGen.tail ih.2 (hpres _ _ ih.1 hstep.2 hstep.1)⟩
  have hroute : ∀ x, EdgeStep g t x → EdgeStep (deleteNode rid t g) p x := by
    rintro x ⟨nt, hnt, e, he, heid, hxne⟩
    have hntt : nt = target := by
      rw [hnt] at ht
      exact Option.some.inj ht
    subst hntt
    have htr : truthy e.id := by
      rw [heid]
      simp [truthy, hxne]
    obtain ⟨e2, he2, hid2⟩ := hadoptmem e he htr
    exact ⟨⟨n.id, n.label, n.type, ch⟩, hlookup_p, e2, he2, by rw [hid2, heid], hxne⟩
  refine ⟨?_, ?_, ?_⟩
  · rw [hdel, lookup_setEntry_ne _ _ _ _ (Ne.symm hpt)]
    exact lookup_eraseKey_self _ _
  · intro k hk
    by_cases hkp : k = p
    · subst hkp
      rw [hlookup_p, hn]
      rfl
    · rw [hdel, lookup_setEntry_ne _ _ _ _ hkp, lookup_eraseKey_ne _ _ _ hk]
  · intro x hx hr
    have main : ∀ z, Reaches g rid z → z ≠ t → Reaches (deleteNode rid t g) rid z := by
      intro z hz
      induction hz with
      | refl => intro _; exact Relation.ReflTransGen.refl
      | @tail b c hprev hstep ih =>
        intro hc
        by_cases hbt : b = t
        · subst hbt
          exact Relation.ReflTransGen.tail (htransport p chain).2 (hroute c hstep)
        · exact Relation.ReflTransGen.tail (ih hbt) (hpres b c hbt hc hstep)
    exact main x hr hx

/-- C1 (amended): for a deletable node t (not the root, locatable via
parent search), deletion removes exactly t from the map, and every other
previously reachable node remains reachable, WHEN the located parent is a
Branch node (any number of adopted edges) or an Action node whose children
are exactly the single slot and t has at most one adopted edge.  The
unrestricted claim is false: an Action parent keeps only the first adopted
edge, orphaning the others' subtrees (see the counterexample). -/
theorem spec_C1_amended (g : Graph) (rid t : String) (r : ParentMatch)
    (parent target : WorkflowNode)
    (hne : t ≠ rid)
    (hfp : findParent rid t g = some r)
    (hp : lookup g r.parentId = some parent)
    (ht : lookup g t = some target)
    (hcase : parent.type = .branch ∨
      (parent.type = .action ∧ parent.children.length = 1 ∧
        (adoptedOf target).length ≤ 1)) :
    lookup (deleteNode rid t g) t = none ∧
    (∀ k, k ≠ t → (lookup (deleteNode rid t g) k).isSome = (lookup g k).isSome) ∧
    (∀ x, x ≠ t → Reaches g rid x → Reaches (deleteNode rid t g) rid x) := by
  obtain ⟨chain, n, slot, hn, hslot, hid⟩ := findParent_some hfp
  have hnp : n = parent := by
    rw [hn] at hp
    exact Option.some.inj hp
  subst hnp
  have hpt : r.parentId ≠ t := stepAvoid_chain_ne chain (Ne.symm hne)
  rcases hcase with hbr | ⟨hac, hlen1, hle1⟩
  · -- Branch parent
    have hlen : r.edgeIndex < n.children.length := getElem_lt_of_some hslot
    have hbase : (ensureBranchEdges n.children)[r.edgeIndex]? = some slot := by
      rw [ensureBranchEdges_getElem_lt _ _ hlen]
      exact hslot
    have hkeepE : ∀ e ∈ n.children, e.id ≠ some t → e ∈ ensureBranchEdges n.children ∧ e ≠ slot := by
      intro e he hid0
      refine ⟨mem_ensureBranchEdges he, ?_⟩
      intro hh
      exact hid0 (by rw [hh, hid])
    rcases hadopt : adoptedOf target with _ | ⟨a, _ | ⟨b, rest⟩⟩
    · have hdel : deleteNode rid t g = setEntry (eraseKey g t) r.parentId
          ⟨n.id, n.label, n.type,
            ensureBranchEdges ((ensureBranchEdges n.children).set r.edgeIndex
              ⟨none, slot.label⟩)⟩ := by
        simp only [deleteNode, if_neg hne, hfp, hp, ht, hbr, hadopt, hbase, Option.getD_some]
      apply delete_reach_finish g rid t r.parentId n target _ hne hpt hn ht chain hdel
      · intro e he hid0
        obtain ⟨heE, hes⟩ := hkeepE e he hid0
        exact mem_ensureBranchEdges (mem_set_of_ne hbase heE hes _)
      · intro e he htr
        have hmem : e ∈ adoptedOf target := List.mem_filter.mpr ⟨he, htr⟩
        rw [hadopt] at hmem
        cases hmem
    · have hdel : deleteNode rid t g = setEntry (eraseKey g t) r.parentId
          ⟨n.id, n.label, n.type,
            ensureBranchEdges ((ensureBranchEdges n.children).set r.edgeIndex
              ⟨a.id, slot.label⟩)⟩ := by
        simp only [deleteNode, if_neg hne, hfp, hp, ht, hbr, hadopt, hbase, Option.getD_some]
      apply delete_reach_finish g rid t r.parentId n target _ hne hpt hn ht chain hdel
      · intro e he hid0
        obtain ⟨heE, hes⟩ := hkeepE e he hid0
        exact mem_ensureBranchEdges (mem_set_of_ne hbase heE hes _)
      · intro e he htr
        have hmem : e ∈ adoptedOf target := List.mem_filter.mpr ⟨he, htr⟩
        rw [hadopt, List.mem_singleton] at hmem
        subst hmem
        refine ⟨⟨e.id, slot.label⟩, ?_, rfl⟩
        exact mem_ensureBranchEdges (mem_set_self (getElem_lt_of_some hbase) _)
    · have hdel : deleteNode rid t g = setEntry (eraseKey g t) r.parentId
          ⟨n.id, n.label, n.type,
            ensureBranchEdges ((ensureBranchEdges n.children).take r.edgeIndex ++
              mapIdxFrom
                (fun idx e =>
                  { label := if e.label ≠ "" then slot.label ++ " + " ++ e.label
                             else slot.label ++ " path " ++ Nat.repr (idx + 1),
                    id := e.id }) 0 (a :: b :: rest) ++
              (ensureBranchEdges n.children).drop (r.edgeIndex + 1))⟩ := by
        simp only [deleteNode, if_neg hne, hfp, hp, ht, hbr, hadopt, hbase, Option.getD_some]
      apply delete_reach_finish g rid t r.parentId n target _ hne hpt hn ht chain hdel
      · intro e he hid0
        obtain ⟨heE, hes⟩ := hkeepE e he hid0
        exact mem_ensureBranchEdges (mem_splice_of_ne _ hbase heE hes)
      · intro e he htr
        have hmem : e ∈ adoptedOf target := List.mem_filter.mpr ⟨he, htr⟩
        rw [hadopt] at hmem
        obtain ⟨x, hx, hxid⟩ := mapIdxFrom_mem_id
          (fun idx e =>
            { label := if e.label ≠ "" then slot.label ++ " + " ++ e.label
                       else slot.label ++ " path " ++ Nat.repr (idx + 1),
              id := e.id }) (fun _ _ => rfl) 0 (a :: b :: rest) e hmem
        refine ⟨x, ?_, hxid⟩
        exact mem_ensureBranchEdges
          (List.mem_append_left _ (List.mem_append_right _ hx))
  · -- Action parent with a single slot and at most one adopted edge
    obtain ⟨u, hu⟩ := List.length_eq_one.mp hlen1
    have hi0 : r.edgeIndex = 0 ∧ u = slot := by
      rw [hu] at hslot
      cases hidx : r.edgeIndex with
      | zero =>
        rw [hidx] at hslot
        exact ⟨rfl, by simpa using hslot⟩
      | succ m =>
        rw [hidx] at hslot
        simp at hslot
    obtain ⟨hi0, hus⟩ := hi0
    have hch : n.children = [slot] := by rw [hu, hus]
    have hlbl : ((n.children[r.edgeIndex]?).map Edge.label).getD "Next" = slot.label := by
      rw [hslot]
      rfl
    have hkeepv : ∀ (ch : List Edge), ∀ e ∈ n.children, e.id ≠ some t → e ∈ ch := by
      intro ch e he hid0
      rw [hch, List.mem_singleton] at he
      subst he
      exact absurd hid (hid0)
    rcases hadopt : adoptedOf target with _ | ⟨a, rest2⟩
    · have hdel : deleteNode rid t g = setEntry (eraseKey g t) r.parentId
          ⟨n.id, n.label, n.type, []⟩ := by
        simp only [deleteNode, if_neg hne, hfp, hp, ht, hac, hadopt]
      apply delete_reach_finish g rid t r.parentId n target _ hne hpt hn ht chain hdel
      · exact hkeepv []
      · intro e he htr
        have hmem : e ∈ adoptedOf target := List.mem_filter.mpr ⟨he, htr⟩
        rw [hadopt] at hmem
        cases hmem
    · have hrest2 : rest2 = [] := by
        rw [hadopt] at hle1
        simp at hle1
        exact hle1
      subst hrest2
      have hdel : deleteNode rid t g = setEntry (eraseKey g t) r.parentId
          ⟨n.id, n.label, n.type, [⟨a.id, slot.label⟩]⟩ := by
        simp only [deleteNode, if_neg hne, hfp, hp, ht, hac, hadopt, hslot]
        rfl
      apply delete_reach_finish g rid t r.parentId n target _ hne hpt hn ht chain hdel
      · exact hkeepv _
      · intro e he htr
        have hmem : e ∈ adoptedOf target := List.mem_filter.mpr ⟨he, htr⟩
        rw [hadopt, List.mem_singleton] at hmem
        subst hmem
        exact ⟨⟨e.id, slot.label⟩, List.mem_singleton.mpr rfl, rfl⟩

theorem spec_C1_amended_witness :
    lookup (deleteNode "node-0" "x1" gBranch) "x1" = none ∧
    (∀ k, k ≠ "x1" →
      (lookup (deleteNode "node-0" "x1" gBranch) k).isSome =
        (lookup gBranch k).isSome) ∧
    (∀ x, x ≠ "x1" → Reaches gBranch "node-0" x →
      Reaches (deleteNode "node-0" "x1" gBranch) "node-0" x) :=
  spec_C1_amended gBranch "node-0" "x1" ⟨"b1", 0⟩
    ⟨"b1", "Branch", .branch, [⟨some "x1", "True"⟩, ⟨none, "False"⟩]⟩
    ⟨"x1", "End", .end_, []⟩
    (by decide) (by decide) (by decide) (by decide) (Or.inl rfl)

/-- C1 counterexample: deleting the Branch node "node-1" under the Action
root keeps only the first adopted edge; "node-3" stays in the map but is
no longer reachable from the root — an orphan, contradicting the claim
for an Action parent with two adopted edges. -/
theorem spec_C1_counterexample :
    (lookup (deleteNode "node-0" "node-1" gOrphan) "node-3").isSome = true ∧
    Reaches gOrphan "node-0" "node-3" ∧
    ¬ Reaches (deleteNode "node-0" "node-1" gOrphan) "node-0" "node-3" := by
  refine ⟨by decide, ?_, ?_⟩
  · have s1 : Reaches gOrphan "node-0" "node-1" :=
      Relation.ReflTransGen.single
        ⟨⟨"node-0", "Start", .action, [⟨some "node-1", "Next"⟩]⟩, rfl,
          ⟨some "node-1", "Next"⟩, by simp, rfl, by decide⟩
    have s2 : EdgeStep gOrphan "node-1" "node-3" :=
      ⟨⟨"node-1", "B", .branch,
        [⟨some "node-2", "True"⟩, ⟨some "node-3", "False"⟩]⟩, rfl,
        ⟨some "node-3", "False"⟩, by simp, rfl, by decide⟩
    exact Relation.ReflTransGen.tail s1 s2
  · intro h
    have hsub : ∀ x, Reaches (deleteNode "node-0" "node-1" gOrphan) "node-0" x →
        x = "node-0" ∨ x = "node-2" := by
      intro x hx
      induction hx with
      | refl => left; rfl
      | tail hprev hstep ih =>
        obtain ⟨n, hn, e, he, heid, hcne⟩ := hstep
        rcases ih with h1 | h1
        · subst h1
          have heval : lookup (deleteNode "node-0" "node-1" gOrphan) "node-0" =
              some ⟨"node-0", "Start", .action, [⟨some "node-2", "Next"⟩]⟩ := by decide
          rw [heval] at hn
          have hn2 := (Option.some.inj hn).symm
          subst hn2
          rw [List.mem_singleton] at he
          subst he
          right
          exact (Option.some.inj heid).symm
        · subst h1
          have heval : lookup (deleteNode "node-0" "node-1" gOrphan) "node-2" =
              some ⟨"node-2", "X", .end_, []⟩ := by decide
          rw [heval] at hn
          have hn2 := (Option.some.inj hn).symm
          subst hn2
          cases he
    rcases hsub "node-3" h with h1 | h1 <;> exact absurd h1 (by decide)

/-! Shape of a freshly inserted node after `attachExistingChild`. -/

theorem attach_falsy (newId : String) (type : NodeType) (cid : Option String)
    (h : truthy cid = false) :
    attachExistingChild (createNode newId type) cid = createNode newId type := by
  simp [attachExistingChild, h]

theorem attach_action (newId : String) (cid : Option String) (h : truthy cid = true) :
    attachExistingChild (createNode newId .action) cid =
      ⟨newId, "Action", .action, [⟨cid, "Next"⟩]⟩ := by
  simp [attachExistingChild, createNode, h]

theorem attach_branch (newId : String) (cid : Option String) (h : truthy cid = true) :
    attachExistingChild (createNode newId .branch) cid =
      ⟨newId, "Branch", .branch, [⟨cid, "True"⟩, ⟨none, "False"⟩]⟩ := by
  simp [attachExistingChild, createNode, h, ensureBranchEdges, BRANCH_BASE]

theorem attach_end (newId : String) (cid : Option String) :
    attachExistingChild (createNode newId .end_) cid = createNode newId .end_ := by
  unfold attachExistingChild
  split
  · rfl
  · rfl

theorem adoptedOf_createNode (newId : String) (type : NodeType) :
    adoptedOf (createNode newId type) = [] := by
  cases type <;> simp [createNode, adoptedOf, ensureBranchEdges, BRANCH_BASE, truthy]

/-- If the inserted node ends with exactly one adopted edge, the prior
target was truthy and that adopted edge carries it. -/
theorem attached_one_adopted (newId : String) (type : NodeType) (cid : Option String)
    (h : (adoptedOf (attachExistingChild (createNode newId type) cid)).length = 1) :
    truthy cid = true ∧
    ∃ a, adoptedOf (attachExistingChild (createNode newId type) cid) = [a] ∧ a.id = cid := by
  by_cases htr : truthy cid = true
  · refine ⟨htr, ?_⟩
    cases type with
    | action =>
      rw [attach_action newId cid htr]
      exact ⟨⟨cid, "Next"⟩, by simp [adoptedOf, htr], rfl⟩
    | branch =>
      rw [attach_branch newId cid htr]
      have hN : truthy none = false := rfl
      exact ⟨⟨cid, "True"⟩, by simp [adoptedOf, htr, hN], rfl⟩
    | end_ =>
      rw [attach_end newId cid] at h
      rw [adoptedOf_createNode] at h
      cases h
  · rw [attach_falsy newId type cid (by simpa using htr)] at h
    rw [adoptedOf_createNode] at h
    cases h

/-- The inserted node never points back at itself or at any id that was
not already a target: its edges carry `cid` or nothing. -/
theorem attached_children_id (newId : String) (type : NodeType) (cid : Option String) :
    ∀ e ∈ (attachExistingChild (createNode newId type) cid).children,
      e.id = cid ∨ e.id = none := by
  intro e he
  by_cases htr : truthy cid = true
  · cases type with
    | action =>
      rw [attach_action newId cid htr] at he
      rw [List.mem_singleton] at he
      subst he
      exact Or.inl rfl
    | branch =>
      rw [attach_branch newId cid htr] at he
      rcases List.mem_cons.mp he with rfl | he1
      · exact Or.inl rfl
      · rw [List.mem_singleton] at he1
        subst he1
        exact Or.inr rfl
    | end_ =>
      rw [attach_end newId cid] at he
      cases he
  · rw [attach_falsy newId type cid (by simpa using htr)] at he
    cases type with
    | action => cases he
    | end_ => cases he
    | branch =>
      simp only [createNode, ensureBranchEdges, BRANCH_BASE] at he
      simp at he
      rcases he with rfl | rfl
      · exact Or.inr rfl
      · exact Or.inr rfl

theorem connectedTargets_append_none (l extra : List Edge)
    (h : ∀ e ∈ extra, e.id = none) :
    connectedTargets (l ++ extra) = connectedTargets l := by
  unfold connectedTargets
  rw [List.filterMap_append]
  have hz : extra.filterMap (fun e => match e.id with
      | some s => if s = "" then none else some s
      | none => none) = [] := by
    rw [List.filterMap_eq_nil_iff]
    intro e he
    rw [h e he]
  rw [hz, List.append_nil]

theorem set_of_getElem_self {l : List Edge} {i : Nat} {x : Edge} (h : l[i]? = some x) :
    l.set i x = l := by
  apply List.ext_getElem?
  intro m
  by_cases hm : m = i
  · subst hm
    rw [List.getElem?_set_self (getElem_lt_of_some h)]
    exact h.symm
  · rw [List.getElem?_set_ne (fun hh => hm hh.symm)]

/-- Insert-then-delete round trip, Action-parent case: the parent's
connected targets are restored. -/
theorem c6_action_case (g g2 : Graph) (rid newId p : String)
    (parent nn : WorkflowNode) (type : NodeType) (rp : String) (ri : Nat)
    (hp : lookup g p = some parent) (hty : parent.type = .action)
    (hsingle : parent.children.length ≤ 1)
    (hfreshKey : lookup g newId = none)
    (hfreshTarget : ∀ k nk, lookup g k = some nk → ∀ e ∈ nk.children, e.id ≠ some newId)
    (hnr : newId ≠ rid)
    (hg2 : g2 = setEntry
      (setEntry g newId (attachExistingChild (createNode newId type)
        (parent.children.head?.bind (fun e => e.id)))) p
      ⟨parent.id, parent.label, parent.type, [⟨some newId, "Next"⟩]⟩)
    (hfp2 : findParent rid newId g2 = some ⟨rp, ri⟩)
    (hnn : lookup g2 newId = some nn)
    (had1 : (adoptedOf nn).length = 1) :
    ∃ parent2, lookup (deleteNode rid newId g2) p = some parent2 ∧
      connectedTargets parent2.children = connectedTargets parent.children := by
  have hnep : newId ≠ p := by
    intro h
    rw [h, hp] at hfreshKey
    cases hfreshKey
  have hg2p : lookup g2 p =
      some ⟨parent.id, parent.label, parent.type, [⟨some newId, "Next"⟩]⟩ := by
    rw [hg2]
    exact lookup_setEntry_self _ _ _
  have hg2new : lookup g2 newId = some (attachExistingChild (createNode newId type)
      (parent.children.head?.bind (fun e => e.id))) := by
    rw [hg2, lookup_setEntry_ne _ _ _ _ hnep]
    exact lookup_setEntry_self _ _ _
  have hnneq : nn = attachExistingChild (createNode newId type)
      (parent.children.head?.bind (fun e => e.id)) := by
    rw [hg2new] at hnn
    exact (Option.some.inj hnn).symm
  subst hnneq
  obtain ⟨htr, a0, hadEq, ha0id⟩ := attached_one_adopted newId type _ had1
  cases hex : parent.children.head?.bind (fun e => e.id) with
  | none =>
    rw [hex] at htr
    simp [truthy] at htr
  | some S =>
  rw [hex] at htr hadEq ha0id hg2new
  have hS : S ≠ "" := by simpa [truthy] using htr
  have hch : ∃ e0, parent.children = [e0] ∧ e0.id = some S := by
    cases hcc : parent.children with
    | nil => rw [hcc] at hex; simp at hex
    | cons e0 rest =>
      cases rest with
      | nil =>
        rw [hcc] at hex
        simp at hex
        exact ⟨e0, rfl, hex⟩
      | cons f rest2 => rw [hcc] at hsingle; simp at hsingle
  obtain ⟨e0, hch, he0⟩ := hch
  have hSnew : S ≠ newId := by
    intro hh
    subst hh
    exact hfreshTarget p parent hp e0
      (by rw [hch]; exact List.mem_singleton.mpr rfl) he0
  have hrp : rp = p := by
    obtain ⟨_, n2, slot2, hn2, hslot2, hid2⟩ := findParent_some hfp2
    by_contra hrpne
    have hmem2 := List.getElem?_mem hslot2
    by_cases hkn : rp = newId
    · rw [hkn] at hn2
      rw [hg2new] at hn2
      have hn2e := (Option.some.inj hn2).symm
      subst hn2e
      rcases attached_children_id newId type (some S) slot2 hmem2 with hA | hA
      · rw [hA] at hid2
        exact hSnew (Option.some.inj hid2)
      · rw [hA] at hid2
        cases hid2
    · have hother : lookup g2 rp = lookup g rp := by
        rw [hg2, lookup_setEntry_ne _ _ _ _ hrpne, lookup_setEntry_ne _ _ _ _ hkn]
      rw [hother] at hn2
      exact hfreshTarget rp n2 hn2 slot2 hmem2 hid2
  rw [hrp] at hfp2
  have hri : ri = 0 := by
    obtain ⟨_, n2, slot2, hn2, hslot2, hid2⟩ := findParent_some hfp2
    rw [hg2p] at hn2
    have hn2e := (Option.some.inj hn2).symm
    subst hn2e
    cases hriv : ri with
    | zero => rfl
    | succ m =>
      rw [hriv] at hslot2
      simp at hslot2
  rw [hri] at hfp2
  have hdel : deleteNode rid newId g2 =
      setEntry (eraseKey g2 newId) p
        ⟨parent.id, parent.label, parent.type, [⟨some S, "Next"⟩]⟩ := by
    simp only [deleteNode, if_neg hnr, hfp2, hg2p, hg2new, hadEq, hty, ha0id,
      List.getElem?_cons_zero, Option.map_some', Option.getD_some]
  refine ⟨_, by rw [hdel]; exact lookup_setEntry_self _ _ _, ?_⟩
  rw [hch]
  simp [connectedTargets, hS, he0]

/-- Insert-then-delete round trip, Branch-parent case: the parent's
connected targets are restored. -/
theorem c6_branch_case (g g2 : Graph) (rid newId p : String)
    (parent nn : WorkflowNode) (type : NodeType) (ti : Nat) (rp : String) (ri : Nat)
    (hp : lookup g p = some parent) (hty : parent.type = .branch)
    (hfreshKey : lookup g newId = none)
    (hfreshTarget : ∀ k nk, lookup g k = some nk → ∀ e ∈ nk.children, e.id ≠ some newId)
    (hnr : newId ≠ rid)
    (hti : ti < (ensureBranchEdges parent.children).length)
    (hg2 : g2 = setEntry
      (setEntry g newId (attachExistingChild (createNode newId type)
        ((ensureBranchEdges parent.children).getD ti ⟨none, "Next"⟩).id)) p
      ⟨parent.id, parent.label, parent.type,
        (ensureBranchEdges parent.children).set ti
          ⟨some newId, ((ensureBranchEdges parent.children).getD ti ⟨none, "Next"⟩).label⟩⟩)
    (hfp2 : findParent rid newId g2 = some ⟨rp, ri⟩)
    (hnn : lookup g2 newId = some nn)
    (had1 : (adoptedOf nn).length = 1) :
    ∃ parent2, lookup (deleteNode rid newId g2) p = some parent2 ∧
      connectedTargets parent2.children = connectedTargets parent.children := by
  have hnep : newId ≠ p := by
    intro h
    rw [h, hp] at hfreshKey
    cases hfreshKey
  set E := ensureBranchEdges parent.children with hE
  set slot := E.getD ti ⟨none, "Next"⟩ with hslotdef
  have hslotE : E[ti]? = some slot := by
    rw [hslotdef]
    simp [List.getD, List.getElem?_eq_getElem hti]
  have hmemslot : slot ∈ E := List.getElem?_mem hslotE
  obtain ⟨extra, hEeq, hextra⟩ := ensureBranchEdges_eq_append parent.children
  rw [← hE] at hEeq
  have hEid : ∀ e ∈ E, e.id ≠ some newId := by
    intro e he
    rw [hEeq] at he
    rcases List.mem_append.mp he with h1 | h2
    · exact hfreshTarget p parent hp e h1
    · rw [(hextra e h2).1]
      simp
  have hg2p : lookup g2 p = some ⟨parent.id, parent.label, parent.type,
      E.set ti ⟨some newId, slot.label⟩⟩ := by
    rw [hg2]
    exact lookup_setEntry_self _ _ _
  have hg2new : lookup g2 newId =
      some (attachExistingChild (createNode newId type) slot.id) := by
    rw [hg2, lookup_setEntry_ne _ _ _ _ hnep]
    exact lookup_setEntry_self _ _ _
  have hnneq : nn = attachExistingChild (createNode newId type) slot.id := by
    rw [hg2new] at hnn
    exact (Option.some.inj hnn).symm
  subst hnneq
  obtain ⟨htr, a0, hadEq, ha0id⟩ := attached_one_adopted newId type slot.id had1
  cases hex : slot.id with
  | none =>
    rw [hex] at htr
    simp [truthy] at htr
  | some S =>
  rw [hex] at htr hadEq ha0id hg2new
  have hS : S ≠ "" := by simpa [truthy] using htr
  have hSnew : S ≠ newId := by
    intro hh
    subst hh
    exact hEid slot hmemslot hex
  have hrp : rp = p := by
    obtain ⟨_, n2, slot2, hn2, hslot2, hid2⟩ := findParent_some hfp2
    by_contra hrpne
    have hmem2 := List.getElem?_mem hslot2
    by_cases hkn : rp = newId
    · rw [hkn, hg2new] at hn2
      have hn2e := (Option.some.inj hn2).symm
      subst hn2e
      rcases attached_children_id newId type (some S) slot2 hmem2 with hA | hA
      · rw [hA] at hid2
        exact hSnew (Option.some.inj hid2)
      · rw [hA] at hid2
        cases hid2
    · have hother : lookup g2 rp = lookup g rp := by
        rw [hg2, lookup_setEntry_ne _ _ _ _ hrpne, lookup_setEntry_ne _ _ _ _ hkn]
      rw [hother] at hn2
      exact hfreshTarget rp n2 hn2 slot2 hmem2 hid2
  rw [hrp] at hfp2
  have hri : ri = ti := by
    obtain ⟨_, n2, slot2, hn2, hslot2, hid2⟩ := findParent_some hfp2
    rw [hg2p] at hn2
    have hn2e := (Option.some.inj hn2).symm
    subst hn2e
    by_contra hrine
    rw [List.getElem?_set_ne (fun hh => hrine hh.symm)] at hslot2
    exact hEid slot2 (List.getElem?_mem hslot2) hid2
  rw [hri] at hfp2
  have hT : ∃ e ∈ E.set ti ⟨some newId, slot.label⟩, e.label = "True" :=
    exists_label_set_getD E ti ⟨none, "Next"⟩ (some newId) "True"
      (ensureBranchEdges_any_true parent.children)
  have hF : ∃ e ∈ E.set ti ⟨some newId, slot.label⟩, e.label = "False" :=
    exists_label_set_getD E ti ⟨none, "Next"⟩ (some newId) "False"
      (ensureBranchEdges_any_false parent.children)
  have hens : ensureBranchEdges (E.set ti ⟨some newId, slot.label⟩) =
      E.set ti ⟨some newId, slot.label⟩ := ensureBranchEdges_of_both hT hF
  have hbase2 : (E.set ti ⟨some newId, slot.label⟩)[ti]? =
      some ⟨some newId, slot.label⟩ := List.getElem?_set_self hti
  have hdel : deleteNode rid newId g2 = setEntry (eraseKey g2 newId) p
      ⟨parent.id, parent.label, parent.type,
        ensureBranchEdges ((E.set ti ⟨some newId, slot.label⟩).set ti
          ⟨a0.id, slot.label⟩)⟩ := by
    simp only [deleteNode, if_neg hnr, hfp2, hg2p, hg2new, hadEq, hty, hens, hbase2,
      Option.getD_some]
  have hch : ensureBranchEdges ((E.set ti ⟨some newId, slot.label⟩).set ti
      ⟨a0.id, slot.label⟩) = E := by
    rw [List.set_set]
    have h1 : (⟨a0.id, slot.label⟩ : Edge) = slot := by
      rw [ha0id, ← hex]
    rw [h1, set_of_getElem_self hslotE]
    exact ensureBranchEdges_of_both (ensureBranchEdges_any_true parent.children)
      (ensureBranchEdges_any_false parent.children)
  rw [hch] at hdel
  refine ⟨_, by rw [hdel]; exact lookup_setEntry_self _ _ _, ?_⟩
  show connectedTargets E = connectedTargets parent.children
  rw [hEeq]
  exact connectedTargets_append_none _ _ (fun e he => (hextra e he).1)

/-- C6 (amended): inserting a fresh node under an existing non-End parent
p and immediately deleting it restores the list of connected targets of
p's children, under the claim's precondition that the inserted node has
exactly one adopted edge at deletion time, and provided the new node is
locatable from the root by parent search after the insert (the unamended
claim fails when p is not reachable from the root: the insert applies but
the delete is a no-op — see the counterexample).  Freshness of the
generated id and a single-edge Action parent are modelling assumptions the
component guarantees (`nextId` and the Action-node invariant). -/
theorem spec_C6_amended (g : Graph) (rid newId p : String)
    (parent nn : WorkflowNode) (branchLabel : Option String) (type : NodeType)
    (r : ParentMatch)
    (hp : lookup g p = some parent)
    (hnotend : parent.type ≠ .end_)
    (hsingle : parent.type = .action → parent.children.length ≤ 1)
    (hfreshKey : lookup g newId = none)
    (hfreshTarget : ∀ k nk, lookup g k = some nk → ∀ e ∈ nk.children, e.id ≠ some newId)
    (hnr : newId ≠ rid)
    (hfp2 : findParent rid newId (addNode newId p branchLabel type g) = some r)
    (hnn : lookup (addNode newId p branchLabel type g) newId = some nn)
    (had1 : (adoptedOf nn).length = 1) :
    ∃ parent2,
      lookup (deleteNode rid newId (addNode newId p branchLabel type g)) p = some parent2 ∧
      connectedTargets parent2.children = connectedTargets parent.children := by
  obtain ⟨rp, ri⟩ := r
  cases hty : parent.type with
  | end_ => exact absurd hty hnotend
  | action =>
    have hg2 : addNode newId p branchLabel type g = setEntry
        (setEntry g newId (attachExistingChild (createNode newId type)
          (parent.children.head?.bind (fun e => e.id)))) p
        ⟨parent.id, parent.label, parent.type, [⟨some newId, "Next"⟩]⟩ := by
      simp [addNode, hp, hty]
    exact c6_action_case g (addNode newId p branchLabel type g) rid newId p parent nn
      type rp ri hp hty (hsingle hty) hfreshKey hfreshTarget hnr hg2 hfp2 hnn had1
  | branch =>
    have hlenE : 0 < (ensureBranchEdges parent.children).length := by
      obtain ⟨e, he, _⟩ := ensureBranchEdges_any_true parent.children
      exact List.length_pos.mpr (fun hh => by rw [hh] at he; cases he)
    cases branchLabel with
    | none =>
      have hg2 : addNode newId p none type g = setEntry
          (setEntry g newId (attachExistingChild (createNode newId type)
            ((ensureBranchEdges parent.children).getD 0 ⟨none, "Next"⟩).id)) p
          ⟨parent.id, parent.label, parent.type,
            (ensureBranchEdges parent.children).set 0
              ⟨some newId, ((ensureBranchEdges parent.children).getD 0
                ⟨none, "Next"⟩).label⟩⟩ := by
        simp [addNode, hp, hty]
      exact c6_branch_case g (addNode newId p none type g) rid newId p parent nn
        type 0 rp ri hp hty hfreshKey hfreshTarget hnr hlenE hg2 hfp2 hnn had1
    | some bl =>
      by_cases hbl : bl = ""
      · subst hbl
        have hg2 : addNode newId p (some "") type g = setEntry
            (setEntry g newId (attachExistingChild (createNode newId type)
              ((ensureBranchEdges parent.children).getD 0 ⟨none, "Next"⟩).id)) p
            ⟨parent.id, parent.label, parent.type,
              (ensureBranchEdges parent.children).set 0
                ⟨some newId, ((ensureBranchEdges parent.children).getD 0
                  ⟨none, "Next"⟩).label⟩⟩ := by
          simp [addNode, hp, hty]
        exact c6_branch_case g (addNode newId p (some "") type g) rid newId p parent nn
          type 0 rp ri hp hty hfreshKey hfreshTarget hnr hlenE hg2 hfp2 hnn had1
      · have hti : ((ensureBranchEdges parent.children).findIdx?
            (fun e => e.label = bl)).getD 0 < (ensureBranchEdges parent.children).length := by
          cases hfi : (ensureBranchEdges parent.children).findIdx?
              (fun e => e.label = bl) with
          | none => exact hlenE
          | some j =>
            have hj := (List.findIdx?_eq_some_iff_findIdx_eq.mp hfi).1
            simpa using hj
        have hg2 : addNode newId p (some bl) type g = setEntry
            (setEntry g newId (attachExistingChild (createNode newId type)
              ((ensureBranchEdges parent.children).getD
                (((ensureBranchEdges parent.children).findIdx?
                  (fun e => e.label = bl)).getD 0) ⟨none, "Next"⟩).id)) p
            ⟨parent.id, parent.label, parent.type,
              (ensureBranchEdges parent.children).set
                (((ensureBranchEdges parent.children).findIdx?
                  (fun e => e.label = bl)).getD 0)
                ⟨some newId, ((ensureBranchEdges parent.children).getD
                  (((ensureBranchEdges parent.children).findIdx?
                    (fun e => e.label = bl)).getD 0) ⟨none, "Next"⟩).label⟩⟩ := by
          simp [addNode, hp, hty, hbl]
        exact c6_branch_case g (addNode newId p (some bl) type g) rid newId p parent nn
          type _ rp ri hp hty hfreshKey hfreshTarget hnr hti hg2 hfp2 hnn had1

theorem spec_C6_amended_witness :
    ∃ parent2,
      lookup (deleteNode "node-0" "node-9"
        (addNode "node-9" "node-0" none .action gSever)) "node-0" = some parent2 ∧
      connectedTargets parent2.children =
        connectedTargets [Edge.mk (some "node-1") "Next"] :=
  spec_C6_amended gSever "node-0" "node-9" "node-0"
    ⟨"node-0", "Start", .action, [⟨some "node-1", "Next"⟩]⟩
    ⟨"node-9", "Action", .action, [⟨some "node-1", "Next"⟩]⟩
    none .action ⟨"node-0", 0⟩
    (by decide) (by decide) (fun _ => by decide) (by decide)
    (by
      intro k nk hk e he
      simp only [gSever, lookup] at hk
      by_cases h0 : "node-0" = k
      · rw [if_pos h0] at hk
        have hn := (Option.some.inj hk).symm
        subst hn
        rw [List.mem_singleton] at he
        subst he
        simp
      · rw [if_neg h0] at hk
        by_cases h1 : "node-1" = k
        · rw [if_pos h1] at hk
          have hn := (Option.some.inj hk).symm
          subst hn
          cases he
        · rw [if_neg h1] at hk
          cases hk)
    (by decide) (by decide) (by decide) (by decide)

/-- C6 counterexample: for a parent "P" that exists but is not reachable
from the root, the insert applies (and the inserted node has exactly one
adopted edge), but the delete is a no-op because the parent search cannot
locate the new node; "P" keeps its edge to the inserted node and its
connected targets are not restored — refuting the claim's "for every
graph and parent p". -/
theorem spec_C6_counterexample :
    (adoptedOf ⟨"node-9", "Action", .action, [⟨some "Q", "Next"⟩]⟩).length = 1 ∧
    lookup (addNode "node-9" "P" none .action gUnreach) "node-9" =
      some ⟨"node-9", "Action", .action, [⟨some "Q", "Next"⟩]⟩ ∧
    deleteNode "node-0" "node-9" (addNode "node-9" "P" none .action gUnreach) =
      addNode "node-9" "P" none .action gUnreach ∧
    lookup (deleteNode "node-0" "node-9" (addNode "node-9" "P" none .action gUnreach)) "P" =
      some ⟨"P", "Loose", .action, [⟨some "node-9", "Next"⟩]⟩ ∧
    connectedTargets [Edge.mk (some "node-9") "Next"] ≠
      connectedTargets [Edge.mk (some "Q") "Next"] := by
  decide

/-! History-manager lemmas. -/

theorem cloneNodes_eq_self {g : Graph} (h : ∀ q ∈ g, q.2.id = q.1) : cloneNodes g = g := by
  induction g with
  | nil => rfl
  | cons q rest ih =>
    obtain ⟨k, n⟩ := q
    have hk : n.id = k := h (k, n) (List.mem_cons_self _ _)
    show (n.id, n) :: cloneNodes rest = (k, n) :: rest
    rw [hk, ih (fun p hp => h p (List.mem_cons_of_mem _ hp))]

theorem applyChange_inv (st : AppState) (f : Graph → Graph)
    (h0 : st.history.head? = some defaultGraph)
    (h1 : st.historyIndex < st.history.length)
    (h2 : st.historyIndex = 0 → st.nodes = defaultGraph) :
    (applyChange st f true).history.head? = some defaultGraph ∧
    (applyChange st f true).historyIndex < (applyChange st f true).history.length ∧
    ((applyChange st f true).historyIndex = 0 →
      (applyChange st f true).nodes = defaultGraph) := by
  unfold applyChange
  by_cases hch : f st.nodes = st.nodes
  · rw [if_pos hch]
    exact ⟨h0, h1, h2⟩
  · rw [if_neg hch]
    cases hh : st.history with
    | nil => rw [hh] at h1; simp at h1
    | cons a rest =>
      rw [hh] at h0 h1
      simp only [List.head?] at h0
      have hle : st.historyIndex + 1 ≤ (a :: rest).length := by
        simp at h1 ⊢
        omega
      refine ⟨?_, ?_, ?_⟩
      · show ((a :: rest).take (st.historyIndex + 1) ++ [cloneNodes (f st.nodes)]).head? =
          some defaultGraph
        rw [List.take_succ_cons]
        simpa using h0
      · show st.historyIndex + 1 <
          ((a :: rest).take (st.historyIndex + 1) ++ [cloneNodes (f st.nodes)]).length
        rw [List.length_append, List.length_take, Nat.min_eq_left hle]
        simp
      · intro hz
        simp at hz

theorem undo_iterate : ∀ (k : Nat) (st : AppState),
    st.history.head? = some defaultGraph →
    st.historyIndex < st.history.length →
    (st.historyIndex = 0 → st.nodes = defaultGraph) →
    st.historyIndex = k →
    (undo^[k] st).nodes = defaultGraph ∧ (undo^[k] st).historyIndex = 0 := by
  intro k
  induction k with
  | zero =>
    intro st h0 h1 h2 hk
    simp only [Function.iterate_zero_apply]
    exact ⟨h2 hk, hk⟩
  | succ k ih =>
    intro st h0 h1 h2 hk
    rw [Function.iterate_succ_apply]
    have hz : ¬st.historyIndex = 0 := by omega
    have hundo : undo st =
        ⟨cloneNodes ((st.history[st.historyIndex - 1]?).getD []),
          st.history, st.historyIndex - 1⟩ := by
      unfold undo
      rw [if_neg hz]
    apply ih
    · rw [hundo]
      exact h0
    · rw [hundo]
      show st.historyIndex - 1 < st.history.length
      omega
    · rw [hundo]
      intro hz2
      show cloneNodes ((st.history[st.historyIndex - 1]?).getD []) = defaultGraph
      have hzz : st.historyIndex - 1 = 0 := hz2
      rw [hzz]
      have hget : st.history[0]? = some defaultGraph := by
        cases hh : st.history with
        | nil => rw [hh] at h0; cases h0
        | cons a rest =>
          rw [hh] at h0
          simpa using h0
      rw [hget]
      rfl
    · rw [hundo]
      show st.historyIndex - 1 = k
      omega

theorem foldl_applyChange_inv (fs : List (Graph → Graph)) :
    ∀ st : AppState,
      st.history.head? = some defaultGraph →
      st.historyIndex < st.history.length →
      (st.historyIndex = 0 → st.nodes = defaultGraph) →
      (fs.foldl (fun st f => applyChange st f true) st).history.head? = some defaultGraph ∧
      (fs.foldl (fun st f => applyChange st f true) st).historyIndex <
        (fs.foldl (fun st f => applyChange st f true) st).history.length ∧
      ((fs.foldl (fun st f => applyChange st f true) st).historyIndex = 0 →
        (fs.foldl (fun st f => applyChange st f true) st).nodes = defaultGraph) := by
  induction fs with
  | nil => intro st h0 h1 h2; exact ⟨h0, h1, h2⟩
  | cons f fs ih =>
    intro st h0 h1 h2
    obtain ⟨k0, k1, k2⟩ := applyChange_inv st f h0 h1 h2
    exact ih (applyChange st f true) k0 k1 k2

theorem undo_at_zero (st : AppState) (h : st.historyIndex = 0) : undo st = st := by
  unfold undo
  rw [if_pos h]

/-- C5: a trackable commit truncates the history after the cursor, appends
the snapshot and advances the cursor; starting from the default graph, for
any sequence of trackable updaters, undoing historyIndex-many times (the
cursor counts exactly the commits that changed the graph) makes the live
graph deep-equal to the default graph, and one further undo at cursor 0 is
a no-op; label edits bypass the history entirely. -/
theorem spec_C5 :
    (∀ (st : AppState) (f : Graph → Graph), f st.nodes ≠ st.nodes →
      applyChange st f true = ⟨f st.nodes,
        st.history.take (st.historyIndex + 1) ++ [cloneNodes (f st.nodes)],
        st.historyIndex + 1⟩) ∧
    (∀ fs : List (Graph → Graph),
      (undo^[(fs.foldl (fun st f => applyChange st f true) initialState).historyIndex]
        (fs.foldl (fun st f => applyChange st f true) initialState)).nodes =
        defaultGraph ∧
      undo (undo^[(fs.foldl (fun st f => applyChange st f true)
          initialState).historyIndex]
        (fs.foldl (fun st f => applyChange st f true) initialState)) =
      undo^[(fs.foldl (fun st f => applyChange st f true) initialState).historyIndex]
        (fs.foldl (fun st f => applyChange st f true) initialState)) ∧
    (∀ (st : AppState) (id label : String),
      (stepApp st (Op.relabel id label)).history = st.history ∧
      (stepApp st (Op.relabel id label)).historyIndex = st.historyIndex) := by
  refine ⟨?_, ?_, ?_⟩
  · intro st f hch
    unfold applyChange
    rw [if_neg hch, if_pos rfl]
  · intro fs
    obtain ⟨h0, h1, h2⟩ := foldl_applyChange_inv fs initialState rfl (by decide)
      (fun _ => rfl)
    obtain ⟨hn, hi⟩ := undo_iterate _ _ h0 h1 h2 rfl
    exact ⟨hn, undo_at_zero _ hi⟩
  · intro st id label
    exact ⟨rfl, rfl⟩

theorem spec_C5_witness :
    (applyChange initialState (addNode "node-1" "node-0" none .action) true =
      ⟨addNode "node-1" "node-0" none .action initialState.nodes,
        initialState.history.take (initialState.historyIndex + 1) ++
          [cloneNodes (addNode "node-1" "node-0" none .action initialState.nodes)],
        initialState.historyIndex + 1⟩) ∧
    ((undo^[([addNode "node-1" "node-0" none .action].foldl
        (fun st f => applyChange st f true) initialState).historyIndex]
      ([addNode "node-1" "node-0" none .action].foldl
        (fun st f => applyChange st f true) initialState)).nodes = defaultGraph ∧
      undo (undo^[([addNode "node-1" "node-0" none .action].foldl
          (fun st f => applyChange st f true) initialState).historyIndex]
        ([addNode "node-1" "node-0" none .action].foldl
          (fun st f => applyChange st f true) initialState)) =
      undo^[([addNode "node-1" "node-0" none .action].foldl
          (fun st f => applyChange st f true) initialState).historyIndex]
        ([addNode "node-1" "node-0" none .action].foldl
          (fun st f => applyChange st f true) initialState)) :=
  ⟨spec_C5.1 initialState (addNode "node-1" "node-0" none .action) (by decide),
   spec_C5.2.1 [addNode "node-1" "node-0" none .action]⟩

/-! Root preservation under every operation. -/

theorem createNode_id (id : String) (type : NodeType) : (createNode id type).id = id := by
  cases type <;> rfl

theorem attachExistingChild_id (n : WorkflowNode) (cid : Option String) :
    (attachExistingChild n cid).id = n.id := by
  unfold attachExistingChild
  split
  · rfl
  · split
    · split <;> rfl
    · rfl
    · rfl

theorem lookup_KC {g : Graph} {k : String} {n : WorkflowNode}
    (hkc : KeyConsistent g) (h : lookup g k = some n) : n.id = k :=
  hkc (k, n) (lookup_mem h)

theorem mem_setEntry {g : Graph} {k : String} {v : WorkflowNode}
    {q : String × WorkflowNode} (h : q ∈ setEntry g k v) : q = (k, v) ∨ q ∈ g := by
  induction g with
  | nil =>
    simp only [setEntry, List.mem_singleton] at h
    exact Or.inl h
  | cons p rest ih =>
    obtain ⟨k0, n0⟩ := p
    by_cases hk : k0 = k
    · rw [setEntry, if_pos hk] at h
      rcases List.mem_cons.mp h with rfl | h2
      · exact Or.inl rfl
      · exact Or.inr (List.mem_cons_of_mem _ h2)
    · rw [setEntry, if_neg hk] at h
      rcases List.mem_cons.mp h with rfl | h2
      · exact Or.inr (List.mem_cons_self _ _)
      · rcases ih h2 with h3 | h3
        · exact Or.inl h3
        · exact Or.inr (List.mem_cons_of_mem _ h3)

theorem KC_setEntry {g : Graph} {k : String} {v : WorkflowNode}
    (hkc : KeyConsistent g) (hv : v.id = k) : KeyConsistent (setEntry g k v) := by
  intro q hq
  rcases mem_setEntry hq with rfl | h2
  · exact hv
  · exact hkc q h2

theorem KC_eraseKey {g : Graph} {k : String} (hkc : KeyConsistent g) :
    KeyConsistent (eraseKey g k) :=
  fun q hq => hkc q (List.mem_of_mem_filter hq)

theorem rootOK_setEntry_other {g : Graph} {k : String} {v : WorkflowNode}
    (h : rootOK g) (hk : k ≠ rootId) : rootOK (setEntry g k v) := by
  obtain ⟨n, hn, hty⟩ := h
  exact ⟨n, by rw [lookup_setEntry_ne _ _ _ _ (Ne.symm hk)]; exact hn, hty⟩

theorem rootOK_setEntry {g : Graph} {k : String} {v : WorkflowNode}
    (h : rootOK g) (hty : k = rootId → v.type = .action) : rootOK (setEntry g k v) := by
  by_cases hk : k = rootId
  · subst hk
    exact ⟨v, lookup_setEntry_self _ _ _, hty rfl⟩
  · exact rootOK_setEntry_other h hk

theorem rootOK_eraseKey {g : Graph} {k : String} (h : rootOK g) (hk : k ≠ rootId) :
    rootOK (eraseKey g k) := by
  obtain ⟨n, hn, hty⟩ := h
  exact ⟨n, by rw [lookup_eraseKey_ne _ _ _ (Ne.symm hk)]; exact hn, hty⟩

theorem node_prefix_ne_zero (m : Nat) : "node-" ++ Nat.repr (m + 1) ≠ "node-0" := by
  intro h
  have hd := congrArg String.data h
  have hd1 : ("node-" ++ Nat.repr (m + 1)).data =
      "node-".data ++ (Nat.repr (m + 1)).data := rfl
  have hd2 : ("node-0" : String).data = "node-".data ++ ("0" : String).data := by decide
  rw [hd1, hd2] at hd
  have hd3 := List.append_cancel_left hd
  exact repr_succ_ne_zero m (String.ext hd3)

theorem nextIdOf_ne_rootId (g : Graph) : nextIdOf g ≠ rootId :=
  node_prefix_ne_zero (maxSuffix g)

theorem addNode_pres (newId parentId : String) (bl : Option String) (ty : NodeType)
    (g : Graph) (hkc : KeyConsistent g) (hro : rootOK g) (hnew : newId ≠ rootId) :
    KeyConsistent (addNode newId parentId bl ty g) ∧
      rootOK (addNode newId parentId bl ty g) := by
  unfold addNode
  cases hl : lookup g parentId with
  | none => exact ⟨hkc, hro⟩
  | some parent =>
    dsimp only
    by_cases hend : parent.type = .end_
    · rw [if_pos hend]
      exact ⟨hkc, hro⟩
    · rw [if_neg hend]
      have hpid : parent.id = parentId := lookup_KC hkc hl
      cases hty : parent.type with
      | end_ => exact absurd hty hend
      | action =>
        simp only [hty]
        refine ⟨KC_setEntry (KC_setEntry hkc ?_) hpid,
          rootOK_setEntry (rootOK_setEntry_other hro hnew) (fun _ => rfl)⟩
        rw [attachExistingChild_id, createNode_id]
      | branch =>
        simp only [hty]
        refine ⟨KC_setEntry (KC_setEntry hkc ?_) hpid,
          rootOK_setEntry (rootOK_setEntry_other hro hnew) ?_⟩
        · rw [attachExistingChild_id, createNode_id]
        · intro hpr
          exfalso
          obtain ⟨n0, hn0, hty0⟩ := hro
          rw [hpr, hn0] at hl
          injection hl with he
          rw [he, hty] at hty0
          exact absurd hty0 (by decide)

theorem deleteNode_pres (targetId : String) (g : Graph)
    (hkc : KeyConsistent g) (hro : rootOK g) :
    KeyConsistent (deleteNode rootId targetId g) ∧
      rootOK (deleteNode rootId targetId g) := by
  unfold deleteNode
  by_cases hg : targetId = rootId
  · rw [if_pos hg]
    exact ⟨hkc, hro⟩
  · rw [if_neg hg]
    cases hfp : findParent rootId targetId g with
    | none => exact ⟨hkc, hro⟩
    | some relation =>
      dsimp only
      cases hl : lookup g relation.parentId with
      | none => exact ⟨hkc, hro⟩
      | some parent =>
        cases hU : lookup g targetId with
        | none => exact ⟨hkc, hro⟩
        | some target =>
          dsimp only
          have hpid : parent.id = relation.parentId := lookup_KC hkc hl
          have hkcE : KeyConsistent (eraseKey g targetId) := KC_eraseKey hkc
          have hroE : rootOK (eraseKey g targetId) := rootOK_eraseKey hro hg
          cases hty : parent.type with
          | action =>
            simp only [hty]
            cases hA : adoptedOf target with
            | nil => exact ⟨KC_setEntry hkcE hpid, rootOK_setEntry hroE (fun _ => rfl)⟩
            | cons next rest =>
              exact ⟨KC_setEntry hkcE hpid, rootOK_setEntry hroE (fun _ => rfl)⟩
          | branch =>
            simp only [hty]
            refine ⟨KC_setEntry hkcE hpid, rootOK_setEntry hroE ?_⟩
            intro hpr
            exfalso
            obtain ⟨n0, hn0, hty0⟩ := hro
            rw [hpr, hn0] at hl
            injection hl with he
            rw [he, hty] at hty0
            exact absurd hty0 (by decide)
          | end_ =>
            simp only [hty]
            exact ⟨hkcE, hroE⟩

theorem updateLabel_pres (id label : String) (g : Graph)
    (hkc : KeyConsistent g) (hro : rootOK g) :
    KeyConsistent (updateLabel id label g) ∧ rootOK (updateLabel id label g) := by
  unfold updateLabel
  cases hl : lookup g id with
  | none => exact ⟨hkc, hro⟩
  | some n =>
    dsimp only
    have hnid : n.id = id := lookup_KC hkc hl
    refine ⟨KC_setEntry hkc hnid, rootOK_setEntry hro ?_⟩
    intro hir
    obtain ⟨n0, hn0, hty0⟩ := hro
    rw [hir, hn0] at hl
    injection hl with he
    rw [he] at hty0
    exact hty0

theorem addBranchPath_pres (nodeId : String) (g : Graph)
    (hkc : KeyConsistent g) (hro : rootOK g) :
    KeyConsistent (addBranchPath nodeId g) ∧ rootOK (addBranchPath nodeId g) := by
  unfold addBranchPath
  cases hl : lookup g nodeId with
  | none => exact ⟨hkc, hro⟩
  | some node =>
    dsimp only
    by_cases hb : node.type = .branch
    · rw [if_pos hb]
      have hnid : node.id = nodeId := lookup_KC hkc hl
      refine ⟨KC_setEntry hkc hnid, rootOK_setEntry hro ?_⟩
      intro hir
      exfalso
      obtain ⟨n0, hn0, hty0⟩ := hro
      rw [hir, hn0] at hl
      injection hl with he
      rw [he, hb] at hty0
      exact absurd hty0 (by decide)
    · rw [if_neg hb]
      exact ⟨hkc, hro⟩

theorem applyChange_AppInv (st : AppState) (f : Graph → Graph) (hinv : AppInv st)
    (hf : KeyConsistent st.nodes → rootOK st.nodes →
      KeyConsistent (f st.nodes) ∧ rootOK (f st.nodes)) :
    AppInv (applyChange st f true) := by
  obtain ⟨hkc, hro, hhist, hlen⟩ := hinv
  simp only [applyChange]
  by_cases hch : f st.nodes = st.nodes
  · rw [if_pos hch]
    exact ⟨hkc, hro, hhist, hlen⟩
  · rw [if_neg hch]
    obtain ⟨hkc2, hro2⟩ := hf hkc hro
    refine ⟨hkc2, hro2, ?_, ?_⟩
    · intro h hh
      rcases List.mem_append.mp hh with h1 | h2
      · exact hhist h (List.take_subset _ _ h1)
      · rw [List.mem_singleton] at h2
        subst h2
        rw [cloneNodes_eq_self hkc2]
        exact ⟨hkc2, hro2⟩
    · show st.historyIndex + 1 <
        (st.history.take (st.historyIndex + 1) ++ [cloneNodes (f st.nodes)]).length
      rw [List.length_append, List.length_take]
      simp only [List.length_singleton]
      omega

theorem undo_AppInv (st : AppState) (hinv : AppInv st) : AppInv (undo st) := by
  obtain ⟨hkc, hro, hhist, hlen⟩ := hinv
  unfold undo
  by_cases hz : st.historyIndex = 0
  · rw [if_pos hz]
    exact ⟨hkc, hro, hhist, hlen⟩
  · rw [if_neg hz]
    cases hget : st.history[st.historyIndex - 1]? with
    | none =>
      exfalso
      have := List.getElem?_eq_none_iff.mp hget
      omega
    | some h =>
      have hm : h ∈ st.history := List.getElem?_mem hget
      obtain ⟨hkch, hroh⟩ := hhist h hm
      refine ⟨?_, ?_, hhist, ?_⟩
      · show KeyConsistent (cloneNodes h)
        rw [cloneNodes_eq_self hkch]
        exact hkch
      · show rootOK (cloneNodes h)
        rw [cloneNodes_eq_self hkch]
        exact hroh
      · show st.historyIndex - 1 < st.history.length
        omega

theorem redo_AppInv (st : AppState) (hinv : AppInv st) : AppInv (redo st) := by
  obtain ⟨hkc, hro, hhist, hlen⟩ := hinv
  unfold redo
  by_cases hz : st.history.length - 1 ≤ st.historyIndex
  · rw [if_pos hz]
    exact ⟨hkc, hro, hhist, hlen⟩
  · rw [if_neg hz]
    cases hget : st.history[st.historyIndex + 1]? with
    | none =>
      exfalso
      have := List.getElem?_eq_none_iff.mp hget
      omega
    | some h =>
      have hm : h ∈ st.history := List.getElem?_mem hget
      obtain ⟨hkch, hroh⟩ := hhist h hm
      refine ⟨?_, ?_, hhist, ?_⟩
      · show KeyConsistent (cloneNodes h)
        rw [cloneNodes_eq_self hkch]
        exact hkch
      · show rootOK (cloneNodes h)
        rw [cloneNodes_eq_self hkch]
        exact hroh
      · show st.historyIndex + 1 < st.history.length
        omega

theorem stepApp_AppInv (st : AppState) (op : Op) (hinv : AppInv st) :
    AppInv (stepApp st op) := by
  cases op with
  | insert parentId branchLabel type =>
    exact applyChange_AppInv st _ hinv
      (fun hkc hro => addNode_pres _ _ _ _ _ hkc hro (nextIdOf_ne_rootId st.nodes))
  | delete targetId =>
    exact applyChange_AppInv st _ hinv (fun hkc hro => deleteNode_pres _ _ hkc hro)
  | relabel id label =>
    obtain ⟨hkc, hro, hhist, hlen⟩ := hinv
    obtain ⟨hkc2, hro2⟩ := updateLabel_pres id label st.nodes hkc hro
    exact ⟨hkc2, hro2, hhist, hlen⟩
  | branchPath nodeId =>
    exact applyChange_AppInv st _ hinv (fun hkc hro => addBranchPath_pres _ _ hkc hro)
  | undoOp => exact undo_AppInv st hinv
  | redoOp => exact redo_AppInv st hinv

theorem KC_defaultGraph : KeyConsistent (cloneNodes defaultGraph) := by
  intro q hq
  have hq2 : q ∈ ([(rootId, ⟨rootId, "Start", NodeType.action, []⟩)] : Graph) := hq
  rw [List.mem_singleton.mp hq2]

theorem rootOK_defaultGraph : rootOK (cloneNodes defaultGraph) :=
  ⟨⟨rootId, "Start", NodeType.action, []⟩, by decide, rfl⟩

theorem AppInv_initialState : AppInv initialState := by
  refine ⟨KC_defaultGraph, rootOK_defaultGraph, ?_, by decide⟩
  intro h hh
  have hh2 : h ∈ [cloneNodes defaultGraph] := hh
  rw [List.mem_singleton.mp hh2]
  exact ⟨KC_defaultGraph, rootOK_defaultGraph⟩

theorem foldl_stepApp_AppInv (ops : List Op) (st : AppState) (hinv : AppInv st) :
    AppInv (ops.foldl stepApp st) := by
  induction ops generalizing st with
  | nil => exact hinv
  | cons op rest ih => exact ih (stepApp st op) (stepApp_AppInv st op hinv)

/-- C8: in every state reachable from the initial state by any sequence of
core operations (insert, delete, relabel, add-branch-path, undo, redo), the
root id is present in the node map and the root node's kind is Action. -/
theorem spec_C8 (ops : List Op) :
    ∃ n, lookup ((ops.foldl stepApp initialState).nodes) rootId = some n ∧
      n.type = NodeType.action :=
  (foldl_stepApp_AppInv ops initialState AppInv_initialState).2.1
